import Mathlib

/-!
Shallow embedding of the `it` iteration library (`it.js`): the filtration
sentinel protocol (`Filtered` / `FilteredRest` / `FilteredUntil`), the fused
traversal engine `mapReduce`, the entry points `map` / `reduce` / `mapReduce`,
pipe fusion, and the stateful operations `skip`, `limit`, `uniq` and the
`stateful` / `resettable` hook combinators.

Modelling conventions:
* JS collections are either arrays or plain objects; `Coll V` mirrors this
  with `arr : List V` and `obj : List (String × V)` (object key enumeration
  order = entry list order, as `Object.keys` yields insertion order).
* Mappers and reducers may close over mutable state and may throw; they are
  embedded as explicit state-passing functions returning
  `σ × Except ε (Outcome V)` together with their optional `setup`/`teardown`
  hooks (absent hooks are the identity on the closure state, which is
  observationally the same as not calling them).
* The `while` loop of `mapReduce` is not structurally terminating (a
  `FilteredUntil` whose offset does not advance the cursor loops forever in
  the JS source), so the loop is fuel-indexed: `none` means the loop did not
  finish within the given fuel.
-/

namespace It

/-- The three variants of `Filtered` sentinel values in `it.js`:
`FILTERED` (skip this item), `FILTERED_REST` (skip everything remaining) and
`FilteredUntil offset` (skip until the given offset). -/
inductive Filt where
  | filtered
  | filteredRest
  | filteredUntil (offset : Nat)
deriving DecidableEq, Repr

/-- `Filtered.prototype.nextIndex` and its overrides: `Filtered` advances to
`index + 1`, `FilteredRest` jumps to `length`, `FilteredUntil` returns its
`offset` unconditionally (`it.js` lines 12-36). -/
def Filt.nextIndex : Filt → Nat → Nat → Nat
  | .filtered, i, _ => i + 1
  | .filteredRest, _, len => len
  | .filteredUntil off, _, _ => off

/-- Result of applying a mapper or reducer: either a normal value or a
`Filtered` sentinel (`isFiltered` distinguishes the two by `instanceof`). -/
inductive Outcome (V : Type) where
  | val (v : V)
  | filt (f : Filt)
deriving DecidableEq, Repr

/-- `isFiltered` (`it.js` line 373). -/
def Outcome.isFiltered : Outcome V → Bool
  | .val _ => false
  | .filt _ => true

/-- A collection key: an array index or an object property name. -/
inductive Key where
  | idx (i : Nat)
  | str (s : String)
deriving DecidableEq, Repr

/-- A collection: a JS array or a JS plain object (entries in enumeration
order; JS objects never hold two entries with the same name). -/
inductive Coll (V : Type) where
  | arr (items : List V)
  | obj (entries : List (String × V))
deriving DecidableEq, Repr

/-- `Array.isArray(coll)`. -/
def Coll.isArr : Coll V → Bool
  | .arr _ => true
  | .obj _ => false

/-- `len = arr.length` where `arr = isArr ? coll : Object.keys(coll)`. -/
def Coll.length : Coll V → Nat
  | .arr l => l.length
  | .obj es => es.length

/-- `Object.keys(coll)` for an object collection. -/
def Coll.keysList : Coll V → List String
  | .arr _ => []
  | .obj es => es.map Prod.fst

/-- `key = isArr ? i : arr[i]` (`it.js` line 106). -/
def Coll.keyAt : Coll V → Nat → Key
  | .arr _, i => .idx i
  | .obj es, i => .str ((es.map Prod.fst).getD i "")

/-- `coll[key]`: array indexing or object property lookup. -/
def Coll.valAt [Inhabited V] : Coll V → Key → V
  | .arr l, .idx i => l.getD i default
  | .obj es, .str s => (List.lookup s es).getD default
  | _, _ => default

/-- `res[resKey] = resVal` on an object result: overwrite an existing entry
in place, otherwise append (JS property assignment). -/
def objWrite : List (String × V) → String → V → List (String × V)
  | [], s, v => [(s, v)]
  | (k, w) :: rest, s, v =>
    if k = s then (k, v) :: rest else (k, w) :: objWrite rest s v

/-- `res[resKey] = resVal` (`it.js` line 125).  For arrays the engine only
ever writes at `resI`, which always equals the current length, so the write
is an append; the in-bounds overwrite is kept for faithfulness. -/
def Coll.write : Coll V → Key → V → Coll V
  | .arr l, .idx j, v => if j < l.length then .arr (l.set j v) else .arr (l ++ [v])
  | .obj es, .str s, v => .obj (objWrite es s v)
  | c, _, _ => c

/-- `res = res ? isArr ? [] : {} : undefined` (`it.js` line 102). -/
def Coll.emptyLike : Coll V → Coll V
  | .arr _ => .arr []
  | .obj _ => .obj []

/-- A (possibly stateful, possibly throwing) mapper: `run` embeds the call
`mapper(value, key, coll)` with the closure state threaded explicitly;
`setup` / `teardown` are its lifecycle hooks (identity when absent). -/
structure SFn (σ V ε : Type) where
  run : σ → V → Key → Coll V → σ × Except ε (Outcome V)
  setup : σ → σ
  teardown : σ → σ

/-- A (possibly stateful, possibly throwing) reducer:
`run state acc value key coll` embeds `reducer(res, value, key, coll)`. -/
structure RFn (σ V ε : Type) where
  run : σ → V → V → Key → Coll V → σ × Except ε (Outcome V)
  setup : σ → σ
  teardown : σ → σ

/-- `applyMap` (`it.js` line 238): an `undefined` mapper is the identity.
(The non-function "constant mapper" case is not modelled; no claim uses it.) -/
def applyMapS : Option (SFn σ V ε) → σ → V → Key → Coll V → σ × Except ε (Outcome V)
  | none, s, v, _, _ => (s, .ok (.val v))
  | some f, s, v, k, c => f.run s v k c

/-- `applyReduce` (`it.js` line 249): an `undefined` reducer returns the value. -/
def applyReduceS : Option (RFn σ V ε) → σ → V → V → Key → Coll V → σ × Except ε (Outcome V)
  | none, s, _, v, _, _ => (s, .ok (.val v))
  | some f, s, acc, v, k, c => f.run s acc v k c

/-- `setupState` (`it.js` line 209) for a mapper. -/
def setupS : Option (SFn σ V ε) → σ → σ
  | none, s => s
  | some f, s => f.setup s

/-- `teardownState` (`it.js` line 215) for a mapper. -/
def teardownS : Option (SFn σ V ε) → σ → σ
  | none, s => s
  | some f, s => f.teardown s

/-- `setupState` for a reducer. -/
def setupR : Option (RFn σ V ε) → σ → σ
  | none, s => s
  | some f, s => f.setup s

/-- `teardownState` for a reducer. -/
def teardownR : Option (RFn σ V ε) → σ → σ
  | none, s => s
  | some f, s => f.teardown s

/-- The `res` variable of `mapReduce`: `undefined`, a result collection
(no-reducer mode with requested output) or the reducer accumulator. -/
inductive ResState (V : Type) where
  | undef
  | outColl (c : Coll V)
  | acc (v : V)
deriving DecidableEq, Repr

/-- Accumulator value of a `res` in reducer mode.  Only read when a reducer
is applied, which the engine guards by `!resIsFirst`; at that point `res`
always holds an accumulator, so the `default` branch is unreachable. -/
def ResState.accD [Inhabited V] : ResState V → V
  | .acc v => v
  | _ => default

/-- `else if (res) res[resKey] = resVal` (`it.js` lines 124-125): write into
the result collection when one was allocated, do nothing when `res` is
`undefined`. -/
def ResState.writeIfColl : ResState V → Key → V → ResState V
  | .outColl c, k, v => .outColl (c.write k v)
  | r, _, _ => r

/-- The mutable locals of the `mapReduce` loop (`it.js` lines 97-100) plus
the closure states of the mapper and the reducer. -/
structure LoopSt (σm σr V : Type) where
  i : Nat
  resI : Nat
  resIsFirst : Bool
  res : ResState V
  sm : σm
  sr : σr
deriving Repr

/-- The `else` branch of the loop body (`it.js` lines 116-126): advance the
read cursor, advance the write cursor for arrays, clear `resIsFirst`, and
store the accepted value (as accumulator or into the result collection). -/
def acceptSt (c : Coll V) (hasReducer : Bool) (st : LoopSt σm σr V)
    (sm' : σm) (sr' : σr) (resKey : Key) (w : V) : LoopSt σm σr V :=
  { i := st.i + 1
    resI := if c.isArr then st.resI + 1 else st.resI
    resIsFirst := false
    res := if hasReducer then .acc w else st.res.writeIfColl resKey w
    sm := sm'
    sr := sr' }

/-- The `while (i < len)` loop of `mapReduce` (`it.js` lines 105-127),
fuel-indexed.  Returns `none` when the fuel runs out before the loop exits,
`some (st, some e)` when a mapper or reducer throws `e` (with the closure
states as they were at the throw — there is no `try`/`finally` in the
source), and `some (st, none)` on normal exit. -/
def mrLoop [Inhabited V] (c : Coll V) (len : Nat)
    (m : Option (SFn σm V ε)) (r : Option (RFn σr V ε)) :
    Nat → LoopSt σm σr V → Option (LoopSt σm σr V × Option ε)
  | 0, st => if st.i < len then none else some (st, none)
  | fuel + 1, st =>
    if st.i < len then
      let key := c.keyAt st.i
      let resKey := if c.isArr then Key.idx st.resI else key
      match applyMapS m st.sm (c.valAt key) resKey c with
      | (sm', .error e) => some ({ st with sm := sm' }, some e)
      | (sm', .ok (.filt o)) =>
        mrLoop c len m r fuel { st with sm := sm', i := o.nextIndex st.i len }
      | (sm', .ok (.val w)) =>
        if r.isSome && !st.resIsFirst then
          match applyReduceS r st.sr st.res.accD w resKey c with
          | (sr', .error e) => some ({ st with sm := sm', sr := sr' }, some e)
          | (sr', .ok (.filt o)) =>
            mrLoop c len m r fuel
              { st with sm := sm', sr := sr', i := o.nextIndex st.i len }
          | (sr', .ok (.val w2)) =>
            mrLoop c len m r fuel (acceptSt c r.isSome st sm' sr' resKey w2)
        else
          mrLoop c len m r fuel (acceptSt c r.isSome st sm' st.sr resKey w)
    else some (st, none)

/-- The epilogue of `mapReduce` after the loop (`it.js` lines 128-130): on
normal exit run `teardownState` on the mapper and the reducer and return
`res`; on a throw the exception leaves `mapReduce` with NO teardown (there
is no `try`/`finally` in the source), carrying the closure states as the
throw left them. -/
def finishRun [Inhabited V] (m : Option (SFn σm V ε)) (r : Option (RFn σr V ε)) :
    Option (LoopSt σm σr V × Option ε) → Option (σm × σr × Except ε (ResState V))
  | none => none
  | some (st, some e) => some (st.sm, st.sr, .error e)
  | some (st, none) => some (teardownS m st.sm, teardownR r st.sr, .ok st.res)

/-- `mapReduce` (`it.js` lines 91-131) with the initial `resIsFirst` / `res`
values supplied by the entry-point wrappers (the JS preamble computes them
from the argument count).  The returned triple holds the mapper and reducer
closure states after the call and either the thrown exception or the final
`res`. -/
def mapReduceAux [Inhabited V] (fuel : Nat) (c : Coll V)
    (m : Option (SFn σm V ε)) (r : Option (RFn σr V ε))
    (resIsFirst0 : Bool) (res0 : ResState V) (sm0 : σm) (sr0 : σr) :
    Option (σm × σr × Except ε (ResState V)) :=
  finishRun m r (mrLoop c c.length m r fuel
    ⟨0, 0, resIsFirst0, res0, setupS m sm0, setupR r sr0⟩)

/-- `it.map(coll, mapper)` = `mapReduce(coll, mapper, undefined, true)`:
no reducer, output requested, `resIsFirst` falsy. -/
def map [Inhabited V] (fuel : Nat) (c : Coll V) (m : Option (SFn σm V ε))
    (sm0 : σm) : Option (σm × Unit × Except ε (ResState V)) :=
  mapReduceAux fuel c m (none : Option (RFn Unit V ε)) false
    (.outColl c.emptyLike) sm0 ()

/-- `it.forEach(coll, f)` = `mapReduce(coll, f, undefined, false)`. -/
def forEach [Inhabited V] (fuel : Nat) (c : Coll V) (m : Option (SFn σm V ε))
    (sm0 : σm) : Option (σm × Unit × Except ε (ResState V)) :=
  mapReduceAux fuel c m (none : Option (RFn Unit V ε)) false .undef sm0 ()

/-- `it.reduce(coll, reducer)` (no seed) = `mapReduce(coll, undefined,
reducer)`: three arguments, so `resIsFirst` starts `true` and `res` starts
`undefined`. -/
def reduceNoSeed [Inhabited V] (fuel : Nat) (c : Coll V) (r : RFn σr V ε)
    (sr0 : σr) : Option (Unit × σr × Except ε (ResState V)) :=
  mapReduceAux fuel c (none : Option (SFn Unit V ε)) (some r) true .undef () sr0

/-- `it.reduce(coll, reducer, seed)` = `mapReduce(coll, undefined, reducer,
seed)`: four arguments, so `resIsFirst` starts `false`. -/
def reduceSeeded [Inhabited V] (fuel : Nat) (c : Coll V) (r : RFn σr V ε)
    (seed : V) (sr0 : σr) : Option (Unit × σr × Except ε (ResState V)) :=
  mapReduceAux fuel c (none : Option (SFn Unit V ε)) (some r) false (.acc seed) () sr0

/-- `it.mapReduce(coll, mapper, reducer)` (no seed). -/
def mapReduceNoSeed [Inhabited V] (fuel : Nat) (c : Coll V)
    (m : Option (SFn σm V ε)) (r : RFn σr V ε) (sm0 : σm) (sr0 : σr) :
    Option (σm × σr × Except ε (ResState V)) :=
  mapReduceAux fuel c m (some r) true .undef sm0 sr0

/-- `it.mapReduce(coll, mapper, reducer, seed)`. -/
def mapReduceSeeded [Inhabited V] (fuel : Nat) (c : Coll V)
    (m : Option (SFn σm V ε)) (r : RFn σr V ε) (seed : V) (sm0 : σm) (sr0 : σr) :
    Option (σm × σr × Except ε (ResState V)) :=
  mapReduceAux fuel c m (some r) false (.acc seed) sm0 sr0

/-- `it.skip(count)` (`it.js` lines 458-467): closure state is the
`skipNext` flag.  The first call of a pass consumes the flag and returns
`filteredUntil(count)`; all later calls pass the value through.  `setup`
sets `skipNext = !!count`; there is no teardown. -/
def skipFn (count : Nat) : SFn Bool V ε where
  run := fun s v _ _ =>
    (false, .ok (if s then .filt (.filteredUntil count) else .val v))
  setup := fun _ => count ≠ 0
  teardown := id

/-- `it.limit(size)` (`it.js` lines 474-481): closure state is the `cur`
counter; `++cur > size` rejects the rest.  `setup` resets `cur = 0`. -/
def limitFn (size : Nat) : SFn Nat V ε where
  run := fun s v _ _ =>
    (s + 1, .ok (if s + 1 > size then .filt .filteredRest else .val v))
  setup := fun _ => 0
  teardown := id

/-- `it.uniq()` with no identity mapper (`it.js` lines 488-509): closure
state is `known`, a set of already-seen values (`none` models the `null`
that `teardown` assigns; calling the mapper in that state would dereference
`null` and throw).  `setup` resets `known` to a fresh empty set; `teardown`
sets it to `null`. -/
def uniqFn [DecidableEq V] (nullErr : ε) : SFn (Option (List V)) V ε where
  run := fun s v _ _ =>
    match s with
    | none => (none, .error nullErr)
    | some seen =>
      if v ∈ seen then (some seen, .ok (.filt .filtered))
      else (some (v :: seen), .ok (.val v))
  setup := fun _ => some []
  teardown := fun _ => none

/-- Run a step function on the first component of a product state (used to
give the members of a concrete pipe a common state type). -/
def SFn.liftFst (f : SFn σ1 V ε) : SFn (σ1 × σ2) V ε where
  run := fun s v k c =>
    let (s1, r) := f.run s.1 v k c
    ((s1, s.2), r)
  setup := fun s => (f.setup s.1, s.2)
  teardown := fun s => (f.teardown s.1, s.2)

/-- Run a step function on the second component of a product state. -/
def SFn.liftSnd (f : SFn σ2 V ε) : SFn (σ1 × σ2) V ε where
  run := fun s v k c =>
    let (s2, r) := f.run s.2 v k c
    ((s.1, s2), r)
  setup := fun s => (s.1, f.setup s.2)
  teardown := fun s => (s.1, f.teardown s.2)

/-- The body of the fused function built by `it.pipe` for two or more
mappers (`it.js` lines 273-278): `res = v; for (i = 0; !isFiltered(res) &&
i < len; i++) res = applyMap(mappers[i], res, k, o); return res`. -/
def pipeRunAux : List (SFn σ V ε) → σ → Outcome V → Key → Coll V →
    σ × Except ε (Outcome V)
  | [], s, res, _, _ => (s, .ok res)
  | f :: fs, s, res, k, c =>
    match res with
    | .filt o => (s, .ok (.filt o))
    | .val v =>
      match f.run s v k c with
      | (s', .error e) => (s', .error e)
      | (s', .ok res') => pipeRunAux fs s' res' k c

/-- `it.pipe(f1, ..., fn)` for `n ≥ 2`: the fused loop body together with
the composed hooks — the construction scan collects every stateful member
and the composed `setup` / `teardown` invoke each member's corresponding
hook in pipe order (`it.js` lines 279-301; stateless members contribute the
identity, which is what not calling a hook does). -/
def pipeFn (fs : List (SFn σ V ε)) : SFn σ V ε where
  run := fun s v k c => pipeRunAux fs s (.val v) k c
  setup := fun s => fs.foldl (fun s f => f.setup s) s
  teardown := fun s => fs.foldl (fun s f => f.teardown s) s

/-- Sequential application `fn(...f2(f1(v,k,o),k,o)...,k,o)` with
short-circuit on a filtered intermediate result, written as the spec
phrases it: apply the last step to the result of sequentially applying all
earlier steps.  (`seqApplyAux` recurses on the reversed list, so its head is
the last step.) -/
def seqApplyAux : List (SFn σ V ε) → σ → Outcome V → Key → Coll V →
    σ × Except ε (Outcome V)
  | [], s, res, _, _ => (s, .ok res)
  | g :: front, s, res, k, c =>
    match seqApplyAux front s res k c with
    | (s', .error e) => (s', .error e)
    | (s', .ok (.filt o)) => (s', .ok (.filt o))
    | (s', .ok (.val v)) => g.run s' v k c

/-- `seqApply [f1, ..., fn] s v k c` = `fn(...f2(f1(v,k,o),k,o)...,k,o)`
with short-circuit. -/
def seqApply (fs : List (SFn σ V ε)) (s : σ) (v : V) (k : Key) (c : Coll V) :
    σ × Except ε (Outcome V) :=
  seqApplyAux fs.reverse s (.val v) k c

/-- The `setup` hook attached by `it.resettable(f, reset)` (`it.js` lines
362-364): `if (toBeReset) reset();` — the flag is checked but NOT cleared.
State is `(toBeReset, innerState)`. -/
def resettableSetup (reset : σ → σ) : Bool × σ → Bool × σ :=
  fun s => (s.1, if s.1 then reset s.2 else s.2)

/-- The `teardown` hook attached by `it.resettable` (`it.js` lines 365-366):
`toBeReset = true`. -/
def resettableTeardown : Bool × σ → Bool × σ :=
  fun s => (true, s.2)

/-- One engine traversal as seen by a `resettable` operation: `setup`, then
the pass itself (an arbitrary transformation `body` of the inner closure
state), then `teardown`. -/
def resettableTraversal (reset : σ → σ) (body : σ → σ) (s : Bool × σ) :
    Bool × σ :=
  resettableTeardown ((fun t => ((t : Bool × σ).1, body t.2)) (resettableSetup reset s))

/-- `n` successive engine traversals over the same `resettable` operation,
starting from the freshly-constructed state (`toBeReset = false`). -/
def resettableTraversals (reset : σ → σ) (body : σ → σ) (s0 : σ) : Nat → Bool × σ
  | 0 => (false, s0)
  | n + 1 => resettableTraversal reset body (resettableTraversals reset body s0 n)

/-- A stateless, non-throwing mapper (a plain JS function). -/
def pureSFn (f : V → Key → Coll V → Outcome V) : SFn Unit V ε where
  run := fun s v k c => (s, .ok (f v k c))
  setup := id
  teardown := id

/-- A stateless, non-throwing reducer that always produces a value and
ignores the collection argument. -/
def totalRFn (g : V → V → Key → V) : RFn Unit V ε where
  run := fun s acc v k _ => (s, .ok (.val (g acc v k)))
  setup := id
  teardown := id

/-- A stateless, non-throwing reducer (may reject via sentinels and may
inspect the collection). -/
def pureRFn (g : V → V → Key → Coll V → Outcome V) : RFn Unit V ε where
  run := fun s acc v k c => (s, .ok (g acc v k c))
  setup := id
  teardown := id

/-! ### Spec-side characterization of the no-reducer ("map") mode

`mapScan` re-describes the traversal without the engine's `res` bookkeeping:
it records, in order, every mapper invocation as a pair
`(key argument passed, number of items accepted so far)` and every accepted
item as a `(result key, value)` write.  `mapMode_loop_eq` proves the engine
loop equal to this description. -/

/-- Outcome of `mapScan`: out of fuel, a throw (with the scan state at the
throw), or normal completion.  `calls` lists every mapper invocation as
`(key argument, accepted count at that moment)`; `writes` lists the
accepted `(result key, value)` pairs in order. -/
inductive ScanOut (σ V ε : Type) where
  | noFuel
  | threw (i resI : Nat) (sm : σ) (e : ε)
      (calls : List (Key × Nat)) (writes : List (Key × V))
  | done (i resI : Nat) (sm : σ)
      (calls : List (Key × Nat)) (writes : List (Key × V))

/-- Record one rejected invocation in front of a scan outcome. -/
def ScanOut.consCall (call : Key × Nat) : ScanOut σ V ε → ScanOut σ V ε
  | .noFuel => .noFuel
  | .threw i resI sm e cs ws => .threw i resI sm e (call :: cs) ws
  | .done i resI sm cs ws => .done i resI sm (call :: cs) ws

/-- Record one accepted invocation (call and write) in front of a scan
outcome. -/
def ScanOut.consAccept (call : Key × Nat) (w : Key × V) :
    ScanOut σ V ε → ScanOut σ V ε
  | .noFuel => .noFuel
  | .threw i resI sm e cs ws => .threw i resI sm e (call :: cs) (w :: ws)
  | .done i resI sm cs ws => .done i resI sm (call :: cs) (w :: ws)

/-- The calls recorded by a scan outcome. -/
def ScanOut.calls : ScanOut σ V ε → List (Key × Nat)
  | .noFuel => []
  | .threw _ _ _ _ cs _ => cs
  | .done _ _ _ cs _ => cs

/-- The writes recorded by a scan outcome. -/
def ScanOut.writes : ScanOut σ V ε → List (Key × V)
  | .noFuel => []
  | .threw _ _ _ _ _ ws => ws
  | .done _ _ _ _ ws => ws

/-- Spec-side scan of the no-reducer traversal: `i` is the read cursor,
`resI` the engine's write cursor, `acc` an independent count of the items
accepted so far.  Each invocation passes the key the engine would pass
(`isArr ? resI : key`) and is recorded together with `acc`. -/
def mapScan [Inhabited V] (c : Coll V) (len : Nat) (m : Option (SFn σ V ε)) :
    Nat → Nat → Nat → Nat → σ → ScanOut σ V ε
  | 0, i, resI, _, sm =>
    if i < len then .noFuel else .done i resI sm [] []
  | fuel + 1, i, resI, acc, sm =>
    if i < len then
      let key := c.keyAt i
      let resKey := if c.isArr then Key.idx resI else key
      match applyMapS m sm (c.valAt key) resKey c with
      | (sm', .error e) => .threw i resI sm' e [(resKey, acc)] []
      | (sm', .ok (.filt o)) =>
        (mapScan c len m fuel (o.nextIndex i len) resI acc sm').consCall (resKey, acc)
      | (sm', .ok (.val w)) =>
        (mapScan c len m fuel (i + 1) (if c.isArr then resI + 1 else resI)
            (acc + 1) sm').consAccept (resKey, acc) (resKey, w)
    else .done i resI sm [] []

/-- Replay a list of result writes into a result collection. -/
def applyWrites (c0 : Coll V) (ws : List (Key × V)) : Coll V :=
  ws.foldl (fun c kv => c.write kv.1 kv.2) c0

/-- Read an engine result off a scan outcome: the result collection is the
initial container with all recorded writes replayed. -/
def scanInterp (c0 : Coll V) : ScanOut σ V ε → Option (LoopSt σ Unit V × Option ε)
  | .noFuel => none
  | .threw i resI sm e _ ws =>
    some (⟨i, resI, false, .outColl (applyWrites c0 ws), sm, ()⟩, some e)
  | .done i resI sm _ ws =>
    some (⟨i, resI, false, .outColl (applyWrites c0 ws), sm, ()⟩, none)

/-- Read the full `it.map` result off a scan outcome. -/
def mapResult [Inhabited V] (c : Coll V) (m : Option (SFn σ V ε)) :
    ScanOut σ V ε → Option (σ × Unit × Except ε (ResState V))
  | .noFuel => none
  | .threw _ _ sm e _ _ => some (sm, (), .error e)
  | .done _ _ sm _ ws =>
    some (teardownS m sm, (), .ok (.outColl (applyWrites c.emptyLike ws)))

/-! ### Spec-side characterization of seedless reduction (`resIsFirst`)

`seekSeed` scans for the first mapper-accepted value using the mapper
alone — its definition does not mention the reducer at all.
`seedless_loop_eq` proves that the engine loop started with
`resIsFirst = true` performs exactly this reducer-free search and then
continues as an ordinary seeded fold whose accumulator is that first
accepted value. -/

/-- Outcome of the seed search: out of fuel, mapper threw, traversal
exhausted with nothing accepted, or first accepted value `v` found (with
the remaining fuel and the already-advanced cursors). -/
inductive SeekOut (σ V ε : Type) where
  | noFuel
  | threw (i resI : Nat) (sm : σ) (e : ε)
  | exhausted (i resI : Nat) (sm : σ)
  | found (fuelLeft i resI : Nat) (sm : σ) (v : V)

/-- Scan for the first mapper-accepted value.  Only the mapper is
consulted; rejected positions advance the cursor through their sentinel's
`nextIndex` exactly as in the engine. -/
def seekSeed [Inhabited V] (c : Coll V) (len : Nat) (m : Option (SFn σ V ε)) :
    Nat → Nat → Nat → σ → SeekOut σ V ε
  | 0, i, resI, sm => if i < len then .noFuel else .exhausted i resI sm
  | fuel + 1, i, resI, sm =>
    if i < len then
      match applyMapS m sm (c.valAt (c.keyAt i))
          (if c.isArr then Key.idx resI else c.keyAt i) c with
      | (sm', .error e) => .threw i resI sm' e
      | (sm', .ok (.filt o)) => seekSeed c len m fuel (o.nextIndex i len) resI sm'
      | (sm', .ok (.val w)) =>
        .found fuel (i + 1) (if c.isArr then resI + 1 else resI) sm' w
    else .exhausted i resI sm

/-! ### Pipe fusion vs. sequential application -/

/-- Apply one step to an intermediate outcome, short-circuiting filtered
outcomes. -/
def app1 (f : SFn σ V ε) (s : σ) (res : Outcome V) (k : Key) (c : Coll V) :
    σ × Except ε (Outcome V) :=
  match res with
  | .filt o => (s, .ok (.filt o))
  | .val v => f.run s v k c

/-! ### Structural (fuel-free) characterizations for pure step functions

For stateless mappers that never return the jump sentinel `FilteredUntil`,
the traversal visits positions strictly left to right, so the accepted
entries can be described by structural recursion on the remaining items.
These descriptions drive the fusion-equivalence proof. -/

/-- The mapper never returns the jump sentinel. -/
def NoUntil (f : V → Key → Coll V → Outcome V) : Prop :=
  ∀ v k c off, f v k c ≠ .filt (.filteredUntil off)

/-- Left fold of a reducer over `(key, value)` pairs. -/
def pairsFold (g : V → V → Key → V) : List (Key × V) → V → V
  | [], a => a
  | (k, v) :: ps, a => pairsFold g ps (g a v k)

/-- Seedless fold: the first value seeds the accumulator (the reducer is
not applied to it), the rest is folded; no pairs yield `undefined`. -/
def pairsSeedFold (g : V → V → Key → V) : List (Key × V) → ResState V
  | [] => .undef
  | (_, v) :: ps => .acc (pairsFold g ps v)

/-- Accepted `(key, mapped value)` pairs of a pure mapper over the array
suffix starting at write cursor `resI` (rejections: `filtered` skips one,
any other sentinel ends the traversal; `filteredUntil` is excluded by
`NoUntil` where this definition is used). -/
def acceptArr (f : V → Key → Coll V → Outcome V) (c : Coll V) :
    List V → Nat → List (Key × V)
  | [], _ => []
  | v :: rest, resI =>
    match f v (.idx resI) c with
    | .val w => (.idx resI, w) :: acceptArr f c rest (resI + 1)
    | .filt .filtered => acceptArr f c rest resI
    | .filt _ => []

/-- Accepted `(property name, mapped value)` entries of a pure mapper over
the object `es`, by recursion on the remaining property names (each value is
read by property lookup, as `coll[key]` does). -/
def acceptObjE (f : V → Key → Coll V → Outcome V) [Inhabited V]
    (es : List (String × V)) : List String → List (String × V)
  | [] => []
  | k :: rest =>
    match f ((List.lookup k es).getD default) (.str k) (.obj es) with
    | .val w => (k, w) :: acceptObjE f es rest
    | .filt .filtered => acceptObjE f es rest
    | .filt _ => []

/-- Turn object entries into keyed write pairs. -/
def toKeyPairs (es : List (String × V)) : List (Key × V) :=
  es.map fun p => (.str p.1, p.2)

/-- The identity mapper (what `applyMap` does when no mapper is given). -/
def idAccept : V → Key → Coll V → Outcome V := fun v _ _ => .val v

/-- Pair each value with its array index, starting at `n`. -/
def enumKeyFrom : Nat → List V → List (Key × V)
  | _, [] => []
  | n, v :: vs => (.idx n, v) :: enumKeyFrom (n + 1) vs

/-! ### Concrete step functions used by the claim instances -/

/-- Keep odd values and double them (stateless filtering mapper). -/
def oddDouble : Int → Key → Coll Int → Outcome Int :=
  fun v _ _ => if v % 2 = 1 then .val (2 * v) else .filt .filtered

/-- Keep odd values (stateless filtering mapper). -/
def oddKeep : Int → Key → Coll Int → Outcome Int :=
  fun v _ _ => if v % 2 = 1 then .val v else .filt .filtered

/-- Integer addition as a reducer ignoring key and collection. -/
def addRed : Int → Int → Key → Int := fun a v _ => a + v

/-- A mapper that always throws; its teardown hook would set the flag. -/
def boomFn : SFn Bool Int String where
  run := fun s _ _ _ => (s, .error "boom")
  setup := id
  teardown := fun _ => true

/-- A reducer that adds; its teardown hook would set the flag. -/
def flagRFn : RFn Bool Int String where
  run := fun s a v _ _ => (s, .ok (.val (a + v)))
  setup := id
  teardown := fun _ => true

/-- A reducer that adds and logs every key it is invoked with. -/
def logKeysRFn : RFn (List Key) Int String where
  run := fun s a v k _ => (s ++ [k], .ok (.val (a + v)))
  setup := id
  teardown := id

/-- The numeric index of a key (0 for property names). -/
def keyIdxInt : Key → Int
  | .idx i => (i : Int)
  | .str _ => 0

/-- Stateless mapper that adds the key it receives to the value. -/
def addKeyMapper : Int → Key → Coll Int → Outcome Int :=
  fun v k _ => .val (v + keyIdxInt k)

/-- Stateless reducer that rejects the value 21 and otherwise adds. -/
def skip21Reducer : Int → Int → Key → Coll Int → Outcome Int :=
  fun res v _ _ => if v = 21 then .filt .filtered else .val (res + v)

/-- Stateless doubling step. -/
def dblFn : SFn Unit Int String := pureSFn fun v _ _ => .val (2 * v)

/-- Stateless increment step. -/
def incFn : SFn Unit Int String := pureSFn fun v _ _ => .val (v + 1)

/-- Step that rejects everything remaining. -/
def rejectRestFn : SFn Unit Int String := pureSFn fun _ _ _ => .filt .filteredRest

/-- A mapper that throws on the value 3 (mid-traversal); its teardown hook
would set the flag. -/
def boomOn3Fn : SFn Bool Int String where
  run := fun s v _ _ => if v = 3 then (s, .error "mapper boom") else (s, .ok (.val v))
  setup := id
  teardown := fun _ => true

/-- A reducer that throws on the value 2 and otherwise adds; its teardown
hook would set the flag. -/
def boomOn2RFn : RFn Bool Int String where
  run := fun s a v _ _ =>
    if v = 2 then (s, .error "reducer boom") else (s, .ok (.val (a + v)))
  setup := id
  teardown := fun _ => true

/-- The error `e` left the loop at state `st` because an actual step
invocation threw it there: either the mapper's invocation at position
`st.i` (key `st.resI` for arrays) returned `st.sm` together with `e`, or
the mapper accepted some `w` (leaving `st.sm`) and the reducer's invocation
on the current accumulator returned `st.sr` together with `e`.  In both
cases the states recorded in `st` are exactly what the throwing invocation
produced — no teardown has touched them. -/
def threwFrom [Inhabited V] (c : Coll V) (m : Option (SFn σm V ε))
    (r : Option (RFn σr V ε)) (st : LoopSt σm σr V) (e : ε) : Prop :=
  (∃ smPre, applyMapS m smPre (c.valAt (c.keyAt st.i))
      (if c.isArr then Key.idx st.resI else c.keyAt st.i) c = (st.sm, .error e))
  ∨ (∃ smPre srPre w,
      applyMapS m smPre (c.valAt (c.keyAt st.i))
        (if c.isArr then Key.idx st.resI else c.keyAt st.i) c = (st.sm, .ok (.val w))
      ∧ applyReduceS r srPre st.res.accD w
          (if c.isArr then Key.idx st.resI else c.keyAt st.i) c = (st.sr, .error e))

theorem applyWrites_cons (c0 : Coll V) (k : Key) (v : V) (ws : List (Key × V)) :
    applyWrites c0 ((k, v) :: ws) = applyWrites (c0.write k v) ws := rfl

theorem scanInterp_consCall (c0 : Coll V) (call : Key × Nat) (out : ScanOut σ V ε) :
    scanInterp c0 (out.consCall call) = scanInterp c0 out := by
  cases out <;> rfl

theorem scanInterp_consAccept (c0 : Coll V) (call : Key × Nat) (k : Key) (v : V)
    (out : ScanOut σ V ε) :
    scanInterp c0 (out.consAccept call (k, v)) = scanInterp (c0.write k v) out := by
  cases out <;> rfl

/-- Master characterization of the no-reducer mode: the engine loop started
on a result collection `c0` behaves exactly as `mapScan` describes. -/
theorem mapMode_loop_eq [Inhabited V] (c : Coll V) (len : Nat)
    (m : Option (SFn σ V ε)) :
    ∀ (fuel i resI acc : Nat) (sm : σ) (c0 : Coll V),
      mrLoop c len m (none : Option (RFn Unit V ε)) fuel
          ⟨i, resI, false, .outColl c0, sm, ()⟩ =
        scanInterp c0 (mapScan c len m fuel i resI acc sm) := by
  intro fuel
  induction fuel with
  | zero =>
    intro i resI acc sm c0
    simp only [mrLoop, mapScan]
    split <;> rfl
  | succ fuel ih =>
    intro i resI acc sm c0
    simp only [mrLoop, mapScan]
    split
    · cases hm : applyMapS m sm (c.valAt (c.keyAt i))
        (if c.isArr then Key.idx resI else c.keyAt i) c with
      | mk sm' r =>
        cases r with
        | error e => rfl
        | ok out =>
          cases out with
          | filt o =>
            rw [scanInterp_consCall]
            exact ih _ _ _ _ _
          | val w =>
            simp only [Option.isSome_none, Bool.false_and, Bool.false_eq_true,
              if_neg, scanInterp_consAccept]
            exact ih _ _ _ _ _
    · rfl

theorem ScanOut.writes_consCall (call : Key × Nat) (out : ScanOut σ V ε) :
    (out.consCall call).writes = out.writes := by cases out <;> rfl

theorem ScanOut.mem_writes_consAccept (call : Key × Nat) (w : Key × V)
    (out : ScanOut σ V ε) (p : Key × V) (hp : p ∈ (out.consAccept call w).writes) :
    p = w ∨ p ∈ out.writes := by
  cases out <;> simp only [consAccept, writes] at hp ⊢ <;> simp at hp <;> tauto

theorem ScanOut.mem_calls_consCall (call : Key × Nat) (out : ScanOut σ V ε)
    (p : Key × Nat) (hp : p ∈ (out.consCall call).calls) :
    p = call ∨ p ∈ out.calls := by
  cases out <;> simp only [consCall, calls] at hp ⊢ <;> simp at hp <;> tauto

theorem ScanOut.mem_calls_consAccept (call : Key × Nat) (w : Key × V)
    (out : ScanOut σ V ε) (p : Key × Nat)
    (hp : p ∈ (out.consAccept call w).calls) :
    p = call ∨ p ∈ out.calls := by
  cases out <;> simp only [consAccept, calls] at hp ⊢ <;> simp at hp <;> tauto

/-- `it.map` is exactly the spec-side scan: its output collection is the
empty container of the input's kind with the accepted writes replayed. -/
theorem map_eq_mapScan [Inhabited V] (fuel : Nat) (c : Coll V)
    (m : Option (SFn σ V ε)) (sm0 : σ) :
    It.map fuel c m sm0 =
      mapResult c m (mapScan c c.length m fuel 0 0 0 (setupS m sm0)) := by
  unfold It.map mapReduceAux
  rw [show setupR (none : Option (RFn Unit V ε)) () = () from rfl,
    mapMode_loop_eq c c.length m fuel 0 0 0 (setupS m sm0) c.emptyLike]
  cases mapScan c c.length m fuel 0 0 0 (setupS m sm0) <;> rfl

theorem mapScan_zero [Inhabited V] (c : Coll V) (len : Nat)
    (m : Option (SFn σ V ε)) (i resI acc : Nat) (sm : σ) :
    mapScan c len m 0 i resI acc sm =
      if i < len then .noFuel else .done i resI sm [] [] := rfl

/-- One unfolding of `mapScan` over an array: the key passed is the write
cursor `resI`, the value read is `l[i]`. -/
theorem mapScan_arr_succ [Inhabited V] (l : List V) (len : Nat)
    (m : Option (SFn σ V ε)) (fuel i resI acc : Nat) (sm : σ) :
    mapScan (.arr l) len m (fuel + 1) i resI acc sm =
      if i < len then
        match applyMapS m sm (l.getD i default) (Key.idx resI) (.arr l) with
        | (sm', .error e) => .threw i resI sm' e [(.idx resI, acc)] []
        | (sm', .ok (.filt o)) =>
          (mapScan (.arr l) len m fuel (o.nextIndex i len) resI acc sm').consCall
            (.idx resI, acc)
        | (sm', .ok (.val w)) =>
          (mapScan (.arr l) len m fuel (i + 1) (resI + 1) (acc + 1) sm').consAccept
            (.idx resI, acc) (.idx resI, w)
      else .done i resI sm [] [] := rfl

/-- One unfolding of `mapScan` over an object: the key passed is the
property name at position `i`. -/
theorem mapScan_obj_succ [Inhabited V] (es : List (String × V)) (len : Nat)
    (m : Option (SFn σ V ε)) (fuel i resI acc : Nat) (sm : σ) :
    mapScan (.obj es) len m (fuel + 1) i resI acc sm =
      if i < len then
        match applyMapS m sm
            ((List.lookup ((es.map Prod.fst).getD i "") es).getD default)
            (Key.str ((es.map Prod.fst).getD i "")) (.obj es) with
        | (sm', .error e) =>
          .threw i resI sm' e [(.str ((es.map Prod.fst).getD i ""), acc)] []
        | (sm', .ok (.filt o)) =>
          (mapScan (.obj es) len m fuel (o.nextIndex i len) resI acc sm').consCall
            (.str ((es.map Prod.fst).getD i ""), acc)
        | (sm', .ok (.val w)) =>
          (mapScan (.obj es) len m fuel (i + 1) resI (acc + 1) sm').consAccept
            (.str ((es.map Prod.fst).getD i ""), acc)
            (.str ((es.map Prod.fst).getD i ""), w)
      else .done i resI sm [] [] := rfl

theorem writes_keys_consCall_step (out : ScanOut σ V ε) (call : Key × Nat)
    (resI : Nat)
    (h : out.writes.map Prod.fst =
      (List.range' resI out.writes.length).map Key.idx) :
    ((out.consCall call).writes).map Prod.fst =
      (List.range' resI ((out.consCall call).writes).length).map Key.idx := by
  rw [ScanOut.writes_consCall]
  exact h

theorem writes_keys_consAccept_step (out : ScanOut σ V ε) (resI acc : Nat) (w : V)
    (h : out.writes.map Prod.fst =
      (List.range' (resI + 1) out.writes.length).map Key.idx) :
    ((out.consAccept (Key.idx resI, acc) (Key.idx resI, w)).writes).map Prod.fst =
      (List.range' resI
        ((out.consAccept (Key.idx resI, acc) (Key.idx resI, w)).writes).length).map
        Key.idx := by
  cases out with
  | noFuel => rfl
  | threw i resI' sm e cs ws =>
    simp only [ScanOut.consAccept, ScanOut.writes, List.map_cons,
      List.length_cons, List.range'_succ] at h ⊢
    rw [h]
  | done i resI' sm cs ws =>
    simp only [ScanOut.consAccept, ScanOut.writes, List.map_cons,
      List.length_cons, List.range'_succ] at h ⊢
    rw [h]

/-- Over an array, the write keys recorded by the scan are the consecutive
indices `resI, resI+1, ...`: rejected items leave no gaps. -/
theorem mapScan_arr_writes_keys [Inhabited V] (l : List V) (len : Nat)
    (m : Option (SFn σ V ε)) :
    ∀ (fuel i resI acc : Nat) (sm : σ),
      ((mapScan (.arr l) len m fuel i resI acc sm).writes).map Prod.fst =
        (List.range' resI ((mapScan (.arr l) len m fuel i resI acc sm).writes).length).map
          Key.idx := by
  intro fuel
  induction fuel with
  | zero =>
    intro i resI acc sm
    rw [mapScan_zero]
    split <;> rfl
  | succ fuel ih =>
    intro i resI acc sm
    rw [mapScan_arr_succ]
    split
    · cases hm : applyMapS m sm (l.getD i default) (Key.idx resI) (Coll.arr l) with
      | mk sm' r =>
        cases r with
        | error e => rfl
        | ok out =>
          cases out with
          | filt o =>
            exact writes_keys_consCall_step _ _ _ (ih _ _ _ _)
          | val w =>
            exact writes_keys_consAccept_step _ _ _ _ (ih _ _ _ _)
    · rfl

/-- Replaying writes whose keys are exactly the consecutive indices starting
at the current length appends the written values in order. -/
theorem applyWrites_arr_consecutive (ws : List (Key × V)) :
    ∀ l0 : List V,
      ws.map Prod.fst = (List.range' l0.length ws.length).map Key.idx →
      applyWrites (.arr l0) ws = .arr (l0 ++ ws.map Prod.snd) := by
  induction ws with
  | nil => intro l0 _; simp [applyWrites]
  | cons kv ws ih =>
    intro l0 h
    obtain ⟨k, v⟩ := kv
    simp only [List.map_cons, List.length_cons, List.range'_succ] at h
    obtain ⟨hk, hrest⟩ := List.cons.inj h
    rw [applyWrites_cons]
    have hw : (Coll.arr l0).write k v = .arr (l0 ++ [v]) := by
      rw [hk]
      simp [Coll.write]
    rw [hw, ih (l0 ++ [v]) (by simpa using hrest)]
    simp

/-- Over an array, every key the engine passes to the mapper is the number
of items accepted so far in the traversal (the write cursor), not the item's
original index. -/
theorem mapScan_arr_calls [Inhabited V] (l : List V) (len : Nat)
    (m : Option (SFn σ V ε)) :
    ∀ (fuel i n : Nat) (sm : σ) (p : Key × Nat),
      p ∈ (mapScan (.arr l) len m fuel i n n sm).calls → p.1 = .idx p.2 := by
  intro fuel
  induction fuel with
  | zero =>
    intro i n sm p hp
    rw [mapScan_zero] at hp
    revert hp
    split <;> intro hp <;> simp [ScanOut.calls] at hp
  | succ fuel ih =>
    intro i n sm p hp
    rw [mapScan_arr_succ] at hp
    revert hp
    split
    · cases hm : applyMapS m sm (l.getD i default) (Key.idx n) (Coll.arr l) with
      | mk sm' r =>
        cases r with
        | error e =>
          intro hp
          simp only [ScanOut.calls, List.mem_singleton] at hp
          subst hp
          rfl
        | ok out =>
          cases out with
          | filt o =>
            intro hp
            rcases ScanOut.mem_calls_consCall _ _ _ hp with hp | hp
            · subst hp; rfl
            · exact ih _ _ _ _ hp
          | val w =>
            intro hp
            rcases ScanOut.mem_calls_consAccept _ _ _ _ hp with hp | hp
            · subst hp; rfl
            · exact ih _ _ _ _ hp
    · intro hp
      simp [ScanOut.calls] at hp

/-- Over an object, every recorded write key is one of the object's own
property names (the key the entry was scanned at). -/
theorem mapScan_obj_writes_keys [Inhabited V] (es : List (String × V))
    (m : Option (SFn σ V ε)) :
    ∀ (fuel i resI acc : Nat) (sm : σ) (p : Key × V),
      p ∈ (mapScan (.obj es) es.length m fuel i resI acc sm).writes →
      ∃ s, p.1 = .str s ∧ s ∈ es.map Prod.fst := by
  intro fuel
  induction fuel with
  | zero =>
    intro i resI acc sm p hp
    rw [mapScan_zero] at hp
    revert hp
    split <;> intro hp <;> simp [ScanOut.writes] at hp
  | succ fuel ih =>
    intro i resI acc sm p hp
    rw [mapScan_obj_succ] at hp
    revert hp
    split
    · cases hm : applyMapS m sm
        ((List.lookup ((es.map Prod.fst).getD i "") es).getD default)
        (Key.str ((es.map Prod.fst).getD i "")) (Coll.obj es) with
      | mk sm' r =>
        cases r with
        | error e =>
          intro hp
          simp [ScanOut.writes] at hp
        | ok out =>
          cases out with
          | filt o =>
            intro hp
            have hp' : p ∈ ((mapScan (Coll.obj es) es.length m fuel
                (o.nextIndex i es.length) resI acc sm').consCall
                  (.str ((es.map Prod.fst).getD i ""), acc)).writes := hp
            rw [ScanOut.writes_consCall] at hp'
            exact ih _ _ _ _ _ hp'
          | val w =>
            intro hp
            have hp' : p ∈ ((mapScan (Coll.obj es) es.length m fuel
                (i + 1) resI (acc + 1) sm').consAccept
                  (.str ((es.map Prod.fst).getD i ""), acc)
                  (.str ((es.map Prod.fst).getD i ""), w)).writes := hp
            rcases ScanOut.mem_writes_consAccept _ _ _ _ hp' with hp2 | hp2
            · subst hp2
              refine ⟨(es.map Prod.fst).getD i "", rfl, ?_⟩
              have hi : i < (es.map Prod.fst).length := by
                simpa using ‹i < es.length›
              rw [List.getD_eq_getElem _ _ hi]
              exact List.getElem_mem hi
            · exact ih _ _ _ _ _ hp2
    · intro hp
      simp [ScanOut.writes] at hp

/-- A key of `objWrite es s v` is a key of `es` or is `s` itself. -/
theorem objWrite_keys_sub (es : List (String × V)) (s : String) (v : V) :
    ∀ t, t ∈ (objWrite es s v).map Prod.fst → t ∈ es.map Prod.fst ∨ t = s := by
  induction es with
  | nil => intro t ht; simp [objWrite] at ht; simp [ht]
  | cons kw es ih =>
    intro t ht
    obtain ⟨k, w⟩ := kw
    simp only [objWrite] at ht
    by_cases hk : k = s
    · rw [if_pos hk] at ht
      simp only [List.map_cons, List.mem_cons] at ht ⊢
      tauto
    · rw [if_neg hk] at ht
      simp only [List.map_cons, List.mem_cons] at ht ⊢
      rcases ht with ht | ht
      · tauto
      · rcases ih t ht with h | h
        · tauto
        · tauto

/-- Replaying writes on an object container introduces no key that is not
in the container or in the writes themselves: a key that is never written
(a rejected key) is absent from the output. -/
theorem applyWrites_obj_keys (ws : List (Key × V)) :
    ∀ (es : List (String × V)) (t : String),
      t ∈ (applyWrites (.obj es) ws).keysList →
      t ∈ es.map Prod.fst ∨ (Key.str t) ∈ ws.map Prod.fst := by
  induction ws with
  | nil => intro es t ht; simp only [applyWrites, List.foldl_nil] at ht; exact Or.inl ht
  | cons kv ws ih =>
    intro es t ht
    obtain ⟨k, v⟩ := kv
    rw [applyWrites_cons] at ht
    cases k with
    | idx j =>
      have : (Coll.obj es).write (Key.idx j) v = Coll.obj es := rfl
      rw [this] at ht
      rcases ih es t ht with h | h
      · exact Or.inl h
      · exact Or.inr (List.mem_cons_of_mem _ h)
    | str s =>
      have : (Coll.obj es).write (Key.str s) v = Coll.obj (objWrite es s v) := rfl
      rw [this] at ht
      rcases ih (objWrite es s v) t ht with h | h
      · rcases objWrite_keys_sub es s v t h with h2 | h2
        · exact Or.inl h2
        · subst h2
          exact Or.inr (List.mem_cons_self _ _)
      · exact Or.inr (List.mem_cons_of_mem _ h)

/-- Master characterization of seedless reduction: with `resIsFirst = true`
the engine loop equals the reducer-free seed search followed — when a first
accepted value `v` exists — by the ordinary loop with `resIsFirst = false`
and accumulator `v`, i.e. exactly a seeded fold with seed `v` starting at
the next position.  The reducer is never applied before that point. -/
theorem seedless_loop_eq [Inhabited V] (c : Coll V) (len : Nat)
    (m : Option (SFn σm V ε)) (r : RFn σr V ε) :
    ∀ (fuel i resI : Nat) (sm : σm) (sr : σr) (res0 : ResState V),
      mrLoop c len m (some r) fuel ⟨i, resI, true, res0, sm, sr⟩ =
        match seekSeed c len m fuel i resI sm with
        | .noFuel => none
        | .threw i' resI' sm' e => some (⟨i', resI', true, res0, sm', sr⟩, some e)
        | .exhausted i' resI' sm' => some (⟨i', resI', true, res0, sm', sr⟩, none)
        | .found fuel' i' resI' sm' v =>
          mrLoop c len m (some r) fuel' ⟨i', resI', false, .acc v, sm', sr⟩ := by
  intro fuel
  induction fuel with
  | zero =>
    intro i resI sm sr res0
    simp only [mrLoop, seekSeed]
    split <;> rfl
  | succ fuel ih =>
    intro i resI sm sr res0
    simp only [mrLoop, seekSeed]
    split
    · cases hm : applyMapS m sm (c.valAt (c.keyAt i))
        (if c.isArr then Key.idx resI else c.keyAt i) c with
      | mk sm' res =>
        cases res with
        | error e => rfl
        | ok out =>
          cases out with
          | filt o => exact ih _ _ _ _ _
          | val w => rfl
    · rfl

theorem seqApplyAux_filt (k : Key) (c : Coll V) :
    ∀ (rfs : List (SFn σ V ε)) (s : σ) (o : Filt),
      seqApplyAux rfs s (.filt o) k c = (s, .ok (.filt o)) := by
  intro rfs
  induction rfs with
  | nil => intro s o; rfl
  | cons g front ih =>
    intro s o
    simp only [seqApplyAux, ih]

theorem seqApplyAux_snoc (k : Key) (c : Coll V) :
    ∀ (rfs : List (SFn σ V ε)) (f : SFn σ V ε) (s : σ) (res : Outcome V),
      seqApplyAux (rfs ++ [f]) s res k c =
        match app1 f s res k c with
        | (s', .error e) => (s', .error e)
        | (s', .ok res') => seqApplyAux rfs s' res' k c := by
  intro rfs
  induction rfs with
  | nil =>
    intro f s res
    cases res with
    | filt o => simp only [List.nil_append, seqApplyAux, app1]
    | val v =>
      simp only [List.nil_append, seqApplyAux, app1]
      cases f.run s v k c with
      | mk s' r => cases r <;> rfl
  | cons g front ih =>
    intro f s res
    simp only [List.cons_append, seqApplyAux, List.append_eq]
    rw [ih]
    cases happ : app1 f s res k c with
    | mk s' r =>
      cases r with
      | error e => rfl
      | ok res' => rfl

/-- The fused pipe body equals sequential application with short-circuit. -/
theorem pipeRunAux_eq_seqApplyAux (k : Key) (c : Coll V) :
    ∀ (fs : List (SFn σ V ε)) (s : σ) (res : Outcome V),
      pipeRunAux fs s res k c = seqApplyAux fs.reverse s res k c := by
  intro fs
  induction fs with
  | nil => intro s res; rfl
  | cons f fs ih =>
    intro s res
    simp only [List.reverse_cons, seqApplyAux_snoc]
    cases res with
    | filt o =>
      simp only [pipeRunAux, app1, seqApplyAux_filt]
    | val v =>
      simp only [pipeRunAux, app1]
      cases f.run s v k c with
      | mk s' r =>
        cases r with
        | error e => rfl
        | ok res' => exact ih s' res'

/-- A filtered intermediate outcome passes through the rest of a pipe
unchanged: no further step runs and the state is untouched. -/
theorem pipeRunAux_filtered (k : Key) (c : Coll V) (gs : List (SFn σ V ε))
    (s : σ) (o : Filt) :
    pipeRunAux gs s (.filt o) k c = (s, .ok (.filt o)) := by
  cases gs <;> rfl

/-- Splitting a pipe: run the prefix, then feed its outcome to the rest. -/
theorem pipeRunAux_append (k : Key) (c : Coll V) :
    ∀ (fs gs : List (SFn σ V ε)) (s : σ) (res : Outcome V),
      pipeRunAux (fs ++ gs) s res k c =
        match pipeRunAux fs s res k c with
        | (s', .error e) => (s', .error e)
        | (s', .ok res') => pipeRunAux gs s' res' k c := by
  intro fs
  induction fs with
  | nil =>
    intro gs s res
    cases res with
    | filt o => simp only [List.nil_append, pipeRunAux, pipeRunAux_filtered]
    | val v => rfl
  | cons f fs ih =>
    intro gs s res
    cases res with
    | filt o =>
      simp only [List.cons_append, pipeRunAux, pipeRunAux_filtered]
    | val v =>
      simp only [List.cons_append, pipeRunAux]
      cases f.run s v k c with
      | mk s' r =>
        cases r with
        | error e => rfl
        | ok res' => exact ih gs s' res'

/-- When the read cursor is past the end, the loop exits at once. -/
theorem mrLoop_exit [Inhabited V] (c : Coll V) (len : Nat)
    (m : Option (SFn σm V ε)) (r : Option (RFn σr V ε)) (fuel : Nat)
    (st : LoopSt σm σr V) (h : ¬ st.i < len) :
    mrLoop c len m r fuel st = some (st, none) := by
  cases fuel <;> simp [mrLoop, h]

/-- One unfolding of the loop over an array, with the array-specific key
and value reads precomputed and the state fields exploded. -/
theorem mrLoop_arr_succ [Inhabited V] (l : List V) (len : Nat)
    (m : Option (SFn σm V ε)) (r : Option (RFn σr V ε)) (fuel : Nat)
    (i resI : Nat) (rif : Bool) (res : ResState V) (sm : σm) (sr : σr) :
    mrLoop (.arr l) len m r (fuel + 1) ⟨i, resI, rif, res, sm, sr⟩ =
      if i < len then
        match applyMapS m sm (l.getD i default) (Key.idx resI) (.arr l) with
        | (sm', .error e) => some (⟨i, resI, rif, res, sm', sr⟩, some e)
        | (sm', .ok (.filt o)) =>
          mrLoop (.arr l) len m r fuel ⟨o.nextIndex i len, resI, rif, res, sm', sr⟩
        | (sm', .ok (.val w)) =>
          if r.isSome && !rif then
            match applyReduceS r sr res.accD w (Key.idx resI) (.arr l) with
            | (sr', .error e) => some (⟨i, resI, rif, res, sm', sr'⟩, some e)
            | (sr', .ok (.filt o)) =>
              mrLoop (.arr l) len m r fuel
                ⟨o.nextIndex i len, resI, rif, res, sm', sr'⟩
            | (sr', .ok (.val w2)) =>
              mrLoop (.arr l) len m r fuel
                ⟨i + 1, resI + 1, false,
                  if r.isSome then .acc w2 else res.writeIfColl (Key.idx resI) w2,
                  sm', sr'⟩
          else
            mrLoop (.arr l) len m r fuel
              ⟨i + 1, resI + 1, false,
                if r.isSome then .acc w else res.writeIfColl (Key.idx resI) w,
                sm', sr⟩
      else some (⟨i, resI, rif, res, sm, sr⟩, none) := rfl

/-- One unfolding of the loop over an object, with the object-specific key
and value reads precomputed and the state fields exploded. -/
theorem mrLoop_obj_succ [Inhabited V] (es : List (String × V)) (len : Nat)
    (m : Option (SFn σm V ε)) (r : Option (RFn σr V ε)) (fuel : Nat)
    (i resI : Nat) (rif : Bool) (res : ResState V) (sm : σm) (sr : σr) :
    mrLoop (.obj es) len m r (fuel + 1) ⟨i, resI, rif, res, sm, sr⟩ =
      if i < len then
        match applyMapS m sm
            ((List.lookup ((es.map Prod.fst).getD i "") es).getD default)
            (Key.str ((es.map Prod.fst).getD i "")) (.obj es) with
        | (sm', .error e) => some (⟨i, resI, rif, res, sm', sr⟩, some e)
        | (sm', .ok (.filt o)) =>
          mrLoop (.obj es) len m r fuel ⟨o.nextIndex i len, resI, rif, res, sm', sr⟩
        | (sm', .ok (.val w)) =>
          if r.isSome && !rif then
            match applyReduceS r sr res.accD w
                (Key.str ((es.map Prod.fst).getD i "")) (.obj es) with
            | (sr', .error e) => some (⟨i, resI, rif, res, sm', sr'⟩, some e)
            | (sr', .ok (.filt o)) =>
              mrLoop (.obj es) len m r fuel
                ⟨o.nextIndex i len, resI, rif, res, sm', sr'⟩
            | (sr', .ok (.val w2)) =>
              mrLoop (.obj es) len m r fuel
                ⟨i + 1, resI, false,
                  if r.isSome then .acc w2
                  else res.writeIfColl (Key.str ((es.map Prod.fst).getD i "")) w2,
                  sm', sr'⟩
          else
            mrLoop (.obj es) len m r fuel
              ⟨i + 1, resI, false,
                if r.isSome then .acc w
                else res.writeIfColl (Key.str ((es.map Prod.fst).getD i "")) w,
                sm', sr⟩
      else some (⟨i, resI, rif, res, sm, sr⟩, none) := rfl

/-- Seeded reduction over an array with a pure mapper and a pure total
reducer is the left fold of the reducer over the accepted pairs. -/
theorem seededLoop_arr [Inhabited V] (l : List V) (mOpt : Option (SFn Unit V ε))
    (f : V → Key → Coll V → Outcome V) (g : V → V → Key → V)
    (happ : ∀ (s : Unit) (v : V) (k : Key),
      applyMapS mOpt s v k (.arr l) = (s, .ok (f v k (.arr l))))
    (hnu : NoUntil f) :
    ∀ (rest : List V) (fuel i resI : Nat) (a : V),
      l.drop i = rest → rest.length ≤ fuel →
      ∃ i' resI',
        mrLoop (.arr l) l.length mOpt (some (totalRFn g)) fuel
            ⟨i, resI, false, .acc a, (), ()⟩ =
          some (⟨i', resI', false,
            .acc (pairsFold g (acceptArr f (.arr l) rest resI) a), (), ()⟩, none) := by
  intro rest
  induction rest with
  | nil =>
    intro fuel i resI a hdrop _
    have hle : l.length ≤ i := by
      have hlen := congrArg List.length hdrop
      simp only [List.length_drop, List.length_nil] at hlen
      omega
    exact ⟨i, resI, mrLoop_exit _ _ _ _ _ _ (show ¬i < l.length by omega)⟩
  | cons v rest' ih =>
    intro fuel i resI a hdrop hfuel
    have hlt : i < l.length := by
      have hlen := congrArg List.length hdrop
      simp only [List.length_drop, List.length_cons] at hlen
      omega
    have hcons := List.drop_eq_getElem_cons hlt
    rw [hdrop] at hcons
    obtain ⟨hv0, htail⟩ := List.cons.inj hcons
    have hv : l.getD i default = v := by
      rw [List.getD_eq_getElem _ _ hlt, ← hv0]
    have hf2 : rest'.length ≤ fuel - 1 := by
      simp only [List.length_cons] at hfuel
      omega
    cases fuel with
    | zero => simp at hfuel
    | succ fuel =>
      rw [mrLoop_arr_succ, if_pos hlt, hv, happ]
      cases hf : f v (Key.idx resI) (Coll.arr l) with
      | val w =>
        obtain ⟨i', resI', heq⟩ :=
          ih fuel (i + 1) (resI + 1) (g a w (.idx resI)) htail.symm (by omega)
        refine ⟨i', resI', ?_⟩
        simp only [acceptArr]
        rw [hf]
        exact heq
      | filt o =>
        cases o with
        | filtered =>
          obtain ⟨i', resI', heq⟩ := ih fuel (i + 1) resI a htail.symm (by omega)
          refine ⟨i', resI', ?_⟩
          simp only [acceptArr]
          rw [hf]
          exact heq
        | filteredRest =>
          refine ⟨l.length, resI, ?_⟩
          simp only [acceptArr]
          rw [hf]
          exact mrLoop_exit _ _ _ _ _ _ (show ¬l.length < l.length by omega)
        | filteredUntil off => exact absurd hf (hnu _ _ _ _)

/-- Seedless reduction over an array with a pure mapper and a pure total
reducer: the first accepted value seeds the fold, the reducer is folded
over the remaining accepted pairs, and the result is `undefined` when
nothing is accepted. -/
theorem seedlessLoop_arr [Inhabited V] (l : List V) (mOpt : Option (SFn Unit V ε))
    (f : V → Key → Coll V → Outcome V) (g : V → V → Key → V)
    (happ : ∀ (s : Unit) (v : V) (k : Key),
      applyMapS mOpt s v k (.arr l) = (s, .ok (f v k (.arr l))))
    (hnu : NoUntil f) :
    ∀ (rest : List V) (fuel i resI : Nat),
      l.drop i = rest → rest.length ≤ fuel →
      ∃ i' resI' b,
        mrLoop (.arr l) l.length mOpt (some (totalRFn g)) fuel
            ⟨i, resI, true, .undef, (), ()⟩ =
          some (⟨i', resI', b,
            pairsSeedFold g (acceptArr f (.arr l) rest resI), (), ()⟩, none) := by
  intro rest
  induction rest with
  | nil =>
    intro fuel i resI hdrop _
    have hle : l.length ≤ i := by
      have hlen := congrArg List.length hdrop
      simp only [List.length_drop, List.length_nil] at hlen
      omega
    exact ⟨i, resI, true, mrLoop_exit _ _ _ _ _ _ (show ¬i < l.length by omega)⟩
  | cons v rest' ih =>
    intro fuel i resI hdrop hfuel
    have hlt : i < l.length := by
      have hlen := congrArg List.length hdrop
      simp only [List.length_drop, List.length_cons] at hlen
      omega
    have hcons := List.drop_eq_getElem_cons hlt
    rw [hdrop] at hcons
    obtain ⟨hv0, htail⟩ := List.cons.inj hcons
    have hv : l.getD i default = v := by
      rw [List.getD_eq_getElem _ _ hlt, ← hv0]
    cases fuel with
    | zero => simp at hfuel
    | succ fuel =>
      rw [mrLoop_arr_succ, if_pos hlt, hv, happ]
      cases hf : f v (Key.idx resI) (Coll.arr l) with
      | val w =>
        obtain ⟨i', resI', heq⟩ :=
          seededLoop_arr l mOpt f g happ hnu rest' fuel (i + 1) (resI + 1) w
            htail.symm (by simp only [List.length_cons] at hfuel; omega)
        refine ⟨i', resI', false, ?_⟩
        simp only [acceptArr]
        rw [hf]
        exact heq
      | filt o =>
        cases o with
        | filtered =>
          obtain ⟨i', resI', b, heq⟩ :=
            ih fuel (i + 1) resI htail.symm
              (by simp only [List.length_cons] at hfuel; omega)
          refine ⟨i', resI', b, ?_⟩
          simp only [acceptArr]
          rw [hf]
          exact heq
        | filteredRest =>
          refine ⟨l.length, resI, true, ?_⟩
          simp only [acceptArr]
          rw [hf]
          exact mrLoop_exit _ _ _ _ _ _ (show ¬l.length < l.length by omega)
        | filteredUntil off => exact absurd hf (hnu _ _ _ _)

/-- Map mode over an array with a pure mapper appends the accepted values to
the output array in order (the write always lands at the current length). -/
theorem mapLoop_arr [Inhabited V] (l : List V) (mOpt : Option (SFn Unit V ε))
    (f : V → Key → Coll V → Outcome V)
    (happ : ∀ (s : Unit) (v : V) (k : Key),
      applyMapS mOpt s v k (.arr l) = (s, .ok (f v k (.arr l))))
    (hnu : NoUntil f) :
    ∀ (rest : List V) (fuel i resI : Nat) (c0 : List V),
      l.drop i = rest → c0.length = resI → rest.length ≤ fuel →
      ∃ i' resI',
        mrLoop (.arr l) l.length mOpt (none : Option (RFn Unit V ε)) fuel
            ⟨i, resI, false, .outColl (.arr c0), (), ()⟩ =
          some (⟨i', resI', false,
            .outColl (.arr (c0 ++ (acceptArr f (.arr l) rest resI).map Prod.snd)),
            (), ()⟩, none) := by
  intro rest
  induction rest with
  | nil =>
    intro fuel i resI c0 hdrop _ _
    have hle : l.length ≤ i := by
      have hlen := congrArg List.length hdrop
      simp only [List.length_drop, List.length_nil] at hlen
      omega
    refine ⟨i, resI, ?_⟩
    simp only [acceptArr, List.map_nil, List.append_nil]
    exact mrLoop_exit _ _ _ _ _ _ (show ¬i < l.length by omega)
  | cons v rest' ih =>
    intro fuel i resI c0 hdrop hc0 hfuel
    have hlt : i < l.length := by
      have hlen := congrArg List.length hdrop
      simp only [List.length_drop, List.length_cons] at hlen
      omega
    have hcons := List.drop_eq_getElem_cons hlt
    rw [hdrop] at hcons
    obtain ⟨hv0, htail⟩ := List.cons.inj hcons
    have hv : l.getD i default = v := by
      rw [List.getD_eq_getElem _ _ hlt, ← hv0]
    cases fuel with
    | zero => simp at hfuel
    | succ fuel =>
      rw [mrLoop_arr_succ, if_pos hlt, hv, happ]
      cases hf : f v (Key.idx resI) (Coll.arr l) with
      | val w =>
        obtain ⟨i', resI', heq⟩ :=
          ih fuel (i + 1) (resI + 1) (c0 ++ [w]) htail.symm
            (by simp [hc0]) (by simp only [List.length_cons] at hfuel; omega)
        refine ⟨i', resI', ?_⟩
        simp only [acceptArr]
        rw [hf]
        show mrLoop (Coll.arr l) l.length mOpt none fuel
            ⟨i + 1, resI + 1, false,
              ResState.writeIfColl (.outColl (.arr c0)) (Key.idx resI) w, (), ()⟩ =
          some (⟨i', resI', false,
            .outColl (.arr (c0 ++
              w :: (acceptArr f (.arr l) rest' (resI + 1)).map Prod.snd)),
            (), ()⟩, none)
        have hw : ResState.writeIfColl (ResState.outColl (.arr c0)) (Key.idx resI) w =
            .outColl (.arr (c0 ++ [w])) := by
          simp only [ResState.writeIfColl, Coll.write]
          rw [if_neg (by omega)]
        rw [hw]
        rw [List.append_assoc] at heq
        exact heq
      | filt o =>
        cases o with
        | filtered =>
          obtain ⟨i', resI', heq⟩ :=
            ih fuel (i + 1) resI c0 htail.symm hc0
              (by simp only [List.length_cons] at hfuel; omega)
          refine ⟨i', resI', ?_⟩
          simp only [acceptArr]
          rw [hf]
          exact heq
        | filteredRest =>
          refine ⟨l.length, resI, ?_⟩
          simp only [acceptArr]
          rw [hf]
          simp only [List.map_nil, List.append_nil]
          exact mrLoop_exit _ _ _ _ _ _ (show ¬l.length < l.length by omega)
        | filteredUntil off => exact absurd hf (hnu _ _ _ _)

/-- Writing a fresh property name appends the entry. -/
theorem objWrite_append (k : String) (v : V) :
    ∀ os : List (String × V), k ∉ os.map Prod.fst →
      objWrite os k v = os ++ [(k, v)] := by
  intro os
  induction os with
  | nil => intro _; rfl
  | cons p os ih =>
    intro hk
    obtain ⟨k0, w0⟩ := p
    simp only [List.map_cons, List.mem_cons] at hk
    push_neg at hk
    simp only [objWrite]
    rw [if_neg (Ne.symm hk.1), ih hk.2]
    rfl

/-- Seeded reduction over an object with a pure mapper and a pure total
reducer is the left fold of the reducer over the accepted entries. -/
theorem seededLoop_obj [Inhabited V] (es : List (String × V))
    (mOpt : Option (SFn Unit V ε)) (f : V → Key → Coll V → Outcome V)
    (g : V → V → Key → V)
    (happ : ∀ (s : Unit) (v : V) (k : Key),
      applyMapS mOpt s v k (.obj es) = (s, .ok (f v k (.obj es))))
    (hnu : NoUntil f) :
    ∀ (rest : List String) (fuel i resI : Nat) (a : V),
      (es.map Prod.fst).drop i = rest → rest.length ≤ fuel →
      ∃ i',
        mrLoop (.obj es) es.length mOpt (some (totalRFn g)) fuel
            ⟨i, resI, false, .acc a, (), ()⟩ =
          some (⟨i', resI, false,
            .acc (pairsFold g (toKeyPairs (acceptObjE f es rest)) a), (), ()⟩, none) := by
  intro rest
  induction rest with
  | nil =>
    intro fuel i resI a hdrop _
    have hle : es.length ≤ i := by
      have hlen := congrArg List.length hdrop
      simp only [List.length_drop, List.length_map, List.length_nil] at hlen
      omega
    exact ⟨i, mrLoop_exit _ _ _ _ _ _ (show ¬i < es.length by omega)⟩
  | cons k rest' ih =>
    intro fuel i resI a hdrop hfuel
    have hlt : i < (es.map Prod.fst).length := by
      have hlen := congrArg List.length hdrop
      simp only [List.length_drop, List.length_cons] at hlen
      omega
    have hlt2 : i < es.length := by simpa using hlt
    have hcons := List.drop_eq_getElem_cons hlt
    rw [hdrop] at hcons
    obtain ⟨hk0, htail⟩ := List.cons.inj hcons
    have hk : (es.map Prod.fst).getD i "" = k := by
      rw [List.getD_eq_getElem _ _ hlt, ← hk0]
    cases fuel with
    | zero => simp at hfuel
    | succ fuel =>
      rw [mrLoop_obj_succ, if_pos hlt2, hk, happ]
      cases hf : f ((List.lookup k es).getD default) (Key.str k) (Coll.obj es) with
      | val w =>
        obtain ⟨i', heq⟩ :=
          ih fuel (i + 1) resI (g a w (.str k)) htail.symm
            (by simp only [List.length_cons] at hfuel; omega)
        refine ⟨i', ?_⟩
        simp only [acceptObjE]
        rw [hf]
        exact heq
      | filt o =>
        cases o with
        | filtered =>
          obtain ⟨i', heq⟩ :=
            ih fuel (i + 1) resI a htail.symm
              (by simp only [List.length_cons] at hfuel; omega)
          refine ⟨i', ?_⟩
          simp only [acceptObjE]
          rw [hf]
          exact heq
        | filteredRest =>
          refine ⟨es.length, ?_⟩
          simp only [acceptObjE]
          rw [hf]
          exact mrLoop_exit _ _ _ _ _ _ (show ¬es.length < es.length by omega)
        | filteredUntil off => exact absurd hf (hnu _ _ _ _)

/-- Seedless reduction over an object: the first accepted value seeds the
fold. -/
theorem seedlessLoop_obj [Inhabited V] (es : List (String × V))
    (mOpt : Option (SFn Unit V ε)) (f : V → Key → Coll V → Outcome V)
    (g : V → V → Key → V)
    (happ : ∀ (s : Unit) (v : V) (k : Key),
      applyMapS mOpt s v k (.obj es) = (s, .ok (f v k (.obj es))))
    (hnu : NoUntil f) :
    ∀ (rest : List String) (fuel i resI : Nat),
      (es.map Prod.fst).drop i = rest → rest.length ≤ fuel →
      ∃ i' b,
        mrLoop (.obj es) es.length mOpt (some (totalRFn g)) fuel
            ⟨i, resI, true, .undef, (), ()⟩ =
          some (⟨i', resI, b,
            pairsSeedFold g (toKeyPairs (acceptObjE f es rest)), (), ()⟩, none) := by
  intro rest
  induction rest with
  | nil =>
    intro fuel i resI hdrop _
    have hle : es.length ≤ i := by
      have hlen := congrArg List.length hdrop
      simp only [List.length_drop, List.length_map, List.length_nil] at hlen
      omega
    exact ⟨i, true, mrLoop_exit _ _ _ _ _ _ (show ¬i < es.length by omega)⟩
  | cons k rest' ih =>
    intro fuel i resI hdrop hfuel
    have hlt : i < (es.map Prod.fst).length := by
      have hlen := congrArg List.length hdrop
      simp only [List.length_drop, List.length_cons] at hlen
      omega
    have hlt2 : i < es.length := by simpa using hlt
    have hcons := List.drop_eq_getElem_cons hlt
    rw [hdrop] at hcons
    obtain ⟨hk0, htail⟩ := List.cons.inj hcons
    have hk : (es.map Prod.fst).getD i "" = k := by
      rw [List.getD_eq_getElem _ _ hlt, ← hk0]
    cases fuel with
    | zero => simp at hfuel
    | succ fuel =>
      rw [mrLoop_obj_succ, if_pos hlt2, hk, happ]
      cases hf : f ((List.lookup k es).getD default) (Key.str k) (Coll.obj es) with
      | val w =>
        obtain ⟨i', heq⟩ :=
          seededLoop_obj es mOpt f g happ hnu rest' fuel (i + 1) resI w
            htail.symm (by simp only [List.length_cons] at hfuel; omega)
        refine ⟨i', false, ?_⟩
        simp only [acceptObjE]
        rw [hf]
        exact heq
      | filt o =>
        cases o with
        | filtered =>
          obtain ⟨i', b, heq⟩ :=
            ih fuel (i + 1) resI htail.symm
              (by simp only [List.length_cons] at hfuel; omega)
          refine ⟨i', b, ?_⟩
          simp only [acceptObjE]
          rw [hf]
          exact heq
        | filteredRest =>
          refine ⟨es.length, true, ?_⟩
          simp only [acceptObjE]
          rw [hf]
          exact mrLoop_exit _ _ _ _ _ _ (show ¬es.length < es.length by omega)
        | filteredUntil off => exact absurd hf (hnu _ _ _ _)

/-- Map mode over an object with a pure mapper appends the accepted entries
under their original property names (names not yet present, so each write
is an append). -/
theorem mapLoop_obj [Inhabited V] (es : List (String × V))
    (mOpt : Option (SFn Unit V ε)) (f : V → Key → Coll V → Outcome V)
    (happ : ∀ (s : Unit) (v : V) (k : Key),
      applyMapS mOpt s v k (.obj es) = (s, .ok (f v k (.obj es))))
    (hnu : NoUntil f) :
    ∀ (rest : List String) (fuel i resI : Nat) (os : List (String × V)),
      (es.map Prod.fst).drop i = rest → rest.length ≤ fuel →
      (∀ t ∈ os.map Prod.fst, t ∉ rest) → rest.Nodup →
      ∃ i',
        mrLoop (.obj es) es.length mOpt (none : Option (RFn Unit V ε)) fuel
            ⟨i, resI, false, .outColl (.obj os), (), ()⟩ =
          some (⟨i', resI, false,
            .outColl (.obj (os ++ acceptObjE f es rest)), (), ()⟩, none) := by
  intro rest
  induction rest with
  | nil =>
    intro fuel i resI os hdrop _ _ _
    have hle : es.length ≤ i := by
      have hlen := congrArg List.length hdrop
      simp only [List.length_drop, List.length_map, List.length_nil] at hlen
      omega
    refine ⟨i, ?_⟩
    simp only [acceptObjE, List.append_nil]
    exact mrLoop_exit _ _ _ _ _ _ (show ¬i < es.length by omega)
  | cons k rest' ih =>
    intro fuel i resI os hdrop hfuel hdisj hnd
    have hlt : i < (es.map Prod.fst).length := by
      have hlen := congrArg List.length hdrop
      simp only [List.length_drop, List.length_cons] at hlen
      omega
    have hlt2 : i < es.length := by simpa using hlt
    have hcons := List.drop_eq_getElem_cons hlt
    rw [hdrop] at hcons
    obtain ⟨hk0, htail⟩ := List.cons.inj hcons
    have hk : (es.map Prod.fst).getD i "" = k := by
      rw [List.getD_eq_getElem _ _ hlt, ← hk0]
    have hnd' : rest'.Nodup := (List.nodup_cons.mp hnd).2
    have hknotin : k ∉ os.map Prod.fst := by
      intro hmem
      exact hdisj k hmem (List.mem_cons_self _ _)
    cases fuel with
    | zero => simp at hfuel
    | succ fuel =>
      rw [mrLoop_obj_succ, if_pos hlt2, hk, happ]
      cases hf : f ((List.lookup k es).getD default) (Key.str k) (Coll.obj es) with
      | val w =>
        obtain ⟨i', heq⟩ :=
          ih fuel (i + 1) resI (os ++ [(k, w)]) htail.symm
            (by simp only [List.length_cons] at hfuel; omega)
            (by
              intro t ht
              simp only [List.map_append, List.mem_append, List.map_cons,
                List.map_nil, List.mem_singleton] at ht
              rcases ht with ht | ht
              · exact fun hc => hdisj t ht (List.mem_cons_of_mem _ hc)
              · subst ht
                exact (List.nodup_cons.mp hnd).1)
            hnd'
        refine ⟨i', ?_⟩
        simp only [acceptObjE]
        rw [hf]
        show mrLoop (Coll.obj es) es.length mOpt none fuel
            ⟨i + 1, resI, false,
              ResState.writeIfColl (.outColl (.obj os)) (Key.str k) w, (), ()⟩ =
          some (⟨i', resI, false,
            .outColl (.obj (os ++ (k, w) :: acceptObjE f es rest')), (), ()⟩, none)
        have hwr : ResState.writeIfColl (ResState.outColl (.obj os)) (Key.str k) w =
            .outColl (.obj (os ++ [(k, w)])) := by
          simp only [ResState.writeIfColl, Coll.write]
          rw [objWrite_append _ _ _ hknotin]
        rw [hwr]
        rw [List.append_assoc] at heq
        exact heq
      | filt o =>
        cases o with
        | filtered =>
          obtain ⟨i', heq⟩ :=
            ih fuel (i + 1) resI os htail.symm
              (by simp only [List.length_cons] at hfuel; omega)
              (fun t ht hc => hdisj t ht (List.mem_cons_of_mem _ hc))
              hnd'
          refine ⟨i', ?_⟩
          simp only [acceptObjE]
          rw [hf]
          exact heq
        | filteredRest =>
          refine ⟨es.length, ?_⟩
          simp only [acceptObjE]
          rw [hf]
          simp only [List.append_nil]
          exact mrLoop_exit _ _ _ _ _ _ (show ¬es.length < es.length by omega)
        | filteredUntil off => exact absurd hf (hnu _ _ _ _)

theorem acceptArr_length (f : V → Key → Coll V → Outcome V) (c : Coll V) :
    ∀ (rest : List V) (n : Nat), (acceptArr f c rest n).length ≤ rest.length := by
  intro rest
  induction rest with
  | nil => intro n; simp [acceptArr]
  | cons v rest ih =>
    intro n
    simp only [acceptArr]
    cases f v (.idx n) c with
    | val w => simpa using ih (n + 1)
    | filt o =>
      cases o with
      | filtered => exact le_trans (ih n) (by simp)
      | filteredRest => simp
      | filteredUntil off => simp

/-- The accepted pairs of an array traversal are their own values enumerated
from the initial write cursor: keys are consecutive. -/
theorem acceptArr_enum (f : V → Key → Coll V → Outcome V) (c : Coll V) :
    ∀ (rest : List V) (n : Nat),
      acceptArr f c rest n = enumKeyFrom n ((acceptArr f c rest n).map Prod.snd) := by
  intro rest
  induction rest with
  | nil => intro n; rfl
  | cons v rest ih =>
    intro n
    simp only [acceptArr]
    cases f v (.idx n) c with
    | val w =>
      simp only [List.map_cons, enumKeyFrom]
      exact congrArg _ (ih (n + 1))
    | filt o => cases o <;> first | exact ih n | rfl

theorem acceptArr_idAccept [Inhabited V] (c : Coll V) :
    ∀ (vs : List V) (n : Nat), acceptArr idAccept c vs n = enumKeyFrom n vs := by
  intro vs
  induction vs with
  | nil => intro n; rfl
  | cons v vs ih =>
    intro n
    simp only [acceptArr, idAccept, enumKeyFrom]
    exact congrArg _ (ih (n + 1))

theorem lookup_cons_ne (k k0 : String) (v0 : V) (es : List (String × V))
    (h : k ≠ k0) : List.lookup k ((k0, v0) :: es) = List.lookup k es := by
  simp [List.lookup, beq_eq_false_iff_ne.mpr h]

/-- Property names the identity traversal never asks about can be dropped
from the object without changing the accepted entries. -/
theorem acceptObjE_idAccept_cons [Inhabited V] (k0 : String) (v0 : V)
    (os : List (String × V)) :
    ∀ kl : List String, (∀ k ∈ kl, k ≠ k0) →
      acceptObjE idAccept ((k0, v0) :: os) kl = acceptObjE idAccept os kl := by
  intro kl
  induction kl with
  | nil => intro _; rfl
  | cons k kl ih =>
    intro hk
    simp only [acceptObjE, idAccept]
    rw [lookup_cons_ne _ _ _ _ (hk k (List.mem_cons_self _ _)),
      ih (fun t ht => hk t (List.mem_cons_of_mem _ ht))]

/-- Reducing an object with the identity mapper visits exactly its own
entries (each property looked up once, no duplicates). -/
theorem acceptObjE_idAccept [Inhabited V] :
    ∀ os : List (String × V), (os.map Prod.fst).Nodup →
      acceptObjE idAccept os (os.map Prod.fst) = os := by
  intro os
  induction os with
  | nil => intro _; rfl
  | cons p os ih =>
    intro hnd
    obtain ⟨k0, v0⟩ := p
    simp only [List.map_cons, List.nodup_cons] at hnd
    simp only [List.map_cons, acceptObjE, idAccept]
    have hlook : List.lookup k0 ((k0, v0) :: os) = some v0 := by
      simp [List.lookup]
    rw [hlook]
    simp only [Option.getD_some]
    rw [acceptObjE_idAccept_cons k0 v0 os (os.map Prod.fst)
      (fun t ht hc => hnd.1 (hc ▸ ht)), ih hnd.2]

theorem acceptObjE_keys_sublist [Inhabited V] (f : V → Key → Coll V → Outcome V)
    (es : List (String × V)) :
    ∀ kl : List String, ((acceptObjE f es kl).map Prod.fst).Sublist kl := by
  intro kl
  induction kl with
  | nil => simp [acceptObjE]
  | cons k kl ih =>
    simp only [acceptObjE]
    cases f ((List.lookup k es).getD default) (.str k) (.obj es) with
    | val w => exact List.Sublist.cons₂ _ ih
    | filt o =>
      cases o with
      | filtered => exact List.Sublist.cons _ ih
      | filteredRest => simp
      | filteredUntil off => simp

/-- With the states fixed to `Unit`, the engine wrapper just projects the
loop's result. -/
theorem mapReduceAux_unitStates [Inhabited V] (fuel : Nat) (c : Coll V)
    (m : Option (SFn Unit V ε)) (r : Option (RFn Unit V ε)) (rif : Bool)
    (res0 : ResState V) :
    mapReduceAux fuel c m r rif res0 () () =
      finishRun m r (mrLoop c c.length m r fuel ⟨0, 0, rif, res0, (), ()⟩) := rfl

theorem noUntil_idAccept [Inhabited V] : NoUntil (idAccept : V → Key → Coll V → Outcome V) :=
  fun _ _ _ _ h => Outcome.noConfusion h

/-- Fused seedless `mapReduce` over an array with a stateless mapper and a
stateless total reducer: seed = first accepted value, fold over the rest. -/
theorem mapReduceNoSeed_arr_pure [Inhabited V] (l : List V)
    (f : V → Key → Coll V → Outcome V) (g : V → V → Key → V) (fuel : Nat)
    (hnu : NoUntil f) (hfuel : l.length ≤ fuel) :
    mapReduceNoSeed (ε := ε) fuel (.arr l) (some (pureSFn f)) (totalRFn g) () () =
      some ((), (), .ok (pairsSeedFold g (acceptArr f (.arr l) l 0))) := by
  unfold mapReduceNoSeed
  rw [mapReduceAux_unitStates]
  simp only [Coll.length]
  obtain ⟨i', resI', b, heq⟩ :=
    seedlessLoop_arr l (some (pureSFn f)) f g (fun _ _ _ => rfl) hnu l fuel 0 0 rfl hfuel
  rw [heq]
  rfl

/-- `it.map` over an array with a stateless mapper: the accepted values,
compacted. -/
theorem map_arr_pure [Inhabited V] (l : List V)
    (f : V → Key → Coll V → Outcome V) (fuel : Nat)
    (hnu : NoUntil f) (hfuel : l.length ≤ fuel) :
    map (ε := ε) fuel (.arr l) (some (pureSFn f)) () =
      some ((), (), .ok (.outColl (.arr ((acceptArr f (.arr l) l 0).map Prod.snd)))) := by
  unfold map
  rw [mapReduceAux_unitStates]
  simp only [Coll.length, Coll.emptyLike]
  obtain ⟨i', resI', heq⟩ :=
    mapLoop_arr l (some (pureSFn f)) f (fun _ _ _ => rfl) hnu l fuel 0 0 [] rfl rfl hfuel
  rw [heq]
  rfl

/-- Seedless `it.reduce` over an array folds its values (identity mapper). -/
theorem reduceNoSeed_arr_idAccept [Inhabited V] (vs : List V) (g : V → V → Key → V)
    (fuel : Nat) (hfuel : vs.length ≤ fuel) :
    reduceNoSeed (ε := ε) fuel (.arr vs) (totalRFn g) () =
      some ((), (), .ok (pairsSeedFold g (enumKeyFrom 0 vs))) := by
  unfold reduceNoSeed
  rw [mapReduceAux_unitStates]
  simp only [Coll.length]
  obtain ⟨i', resI', b, heq⟩ :=
    seedlessLoop_arr vs (none : Option (SFn Unit V ε)) idAccept g (fun _ _ _ => rfl)
      noUntil_idAccept vs fuel 0 0 rfl hfuel
  rw [acceptArr_idAccept] at heq
  rw [heq]
  rfl

/-- Fused seedless `mapReduce` over an object with a stateless mapper and a
stateless total reducer. -/
theorem mapReduceNoSeed_obj_pure [Inhabited V] (es : List (String × V))
    (f : V → Key → Coll V → Outcome V) (g : V → V → Key → V) (fuel : Nat)
    (hnu : NoUntil f) (hfuel : es.length ≤ fuel) :
    mapReduceNoSeed (ε := ε) fuel (.obj es) (some (pureSFn f)) (totalRFn g) () () =
      some ((), (),
        .ok (pairsSeedFold g (toKeyPairs (acceptObjE f es (es.map Prod.fst))))) := by
  unfold mapReduceNoSeed
  rw [mapReduceAux_unitStates]
  simp only [Coll.length]
  obtain ⟨i', b, heq⟩ :=
    seedlessLoop_obj es (some (pureSFn f)) f g (fun _ _ _ => rfl) hnu
      (es.map Prod.fst) fuel 0 0 rfl (by simpa using hfuel)
  rw [heq]
  rfl

/-- `it.map` over an object with a stateless mapper: the accepted entries
under their original property names. -/
theorem map_obj_pure [Inhabited V] (es : List (String × V))
    (f : V → Key → Coll V → Outcome V) (fuel : Nat)
    (hnu : NoUntil f) (hfuel : es.length ≤ fuel)
    (hnd : (es.map Prod.fst).Nodup) :
    map (ε := ε) fuel (.obj es) (some (pureSFn f)) () =
      some ((), (), .ok (.outColl (.obj (acceptObjE f es (es.map Prod.fst))))) := by
  unfold map
  rw [mapReduceAux_unitStates]
  simp only [Coll.length, Coll.emptyLike]
  obtain ⟨i', heq⟩ :=
    mapLoop_obj es (some (pureSFn f)) f (fun _ _ _ => rfl) hnu
      (es.map Prod.fst) fuel 0 0 [] rfl (by simpa using hfuel) (by simp) hnd
  rw [heq]
  rfl

/-- Seedless `it.reduce` over an object folds its entries (identity
mapper). -/
theorem reduceNoSeed_obj_idAccept [Inhabited V] (os : List (String × V))
    (g : V → V → Key → V) (fuel : Nat) (hfuel : os.length ≤ fuel)
    (hnd : (os.map Prod.fst).Nodup) :
    reduceNoSeed (ε := ε) fuel (.obj os) (totalRFn g) () =
      some ((), (), .ok (pairsSeedFold g (toKeyPairs os))) := by
  unfold reduceNoSeed
  rw [mapReduceAux_unitStates]
  simp only [Coll.length]
  obtain ⟨i', b, heq⟩ :=
    seedlessLoop_obj os (none : Option (SFn Unit V ε)) idAccept g (fun _ _ _ => rfl)
      noUntil_idAccept (os.map Prod.fst) fuel 0 0 rfl (by simpa using hfuel)
  rw [acceptObjE_idAccept os hnd] at heq
  rw [heq]
  rfl

/-- One unfolding of the loop with the state fields exploded (any
collection kind). -/
theorem mrLoop_succ [Inhabited V] (c : Coll V) (len : Nat)
    (m : Option (SFn σm V ε)) (r : Option (RFn σr V ε)) (fuel : Nat)
    (i resI : Nat) (rif : Bool) (res : ResState V) (sm : σm) (sr : σr) :
    mrLoop c len m r (fuel + 1) ⟨i, resI, rif, res, sm, sr⟩ =
      if i < len then
        match applyMapS m sm (c.valAt (c.keyAt i))
            (if c.isArr then Key.idx resI else c.keyAt i) c with
        | (sm', .error e) => some (⟨i, resI, rif, res, sm', sr⟩, some e)
        | (sm', .ok (.filt o)) =>
          mrLoop c len m r fuel ⟨o.nextIndex i len, resI, rif, res, sm', sr⟩
        | (sm', .ok (.val w)) =>
          if r.isSome && !rif then
            match applyReduceS r sr res.accD w
                (if c.isArr then Key.idx resI else c.keyAt i) c with
            | (sr', .error e) => some (⟨i, resI, rif, res, sm', sr'⟩, some e)
            | (sr', .ok (.filt o)) =>
              mrLoop c len m r fuel ⟨o.nextIndex i len, resI, rif, res, sm', sr'⟩
            | (sr', .ok (.val w2)) =>
              mrLoop c len m r fuel
                ⟨i + 1, if c.isArr then resI + 1 else resI, false,
                  if r.isSome then .acc w2
                  else res.writeIfColl (if c.isArr then Key.idx resI else c.keyAt i) w2,
                  sm', sr'⟩
          else
            mrLoop c len m r fuel
              ⟨i + 1, if c.isArr then resI + 1 else resI, false,
                if r.isSome then .acc w
                else res.writeIfColl (if c.isArr then Key.idx resI else c.keyAt i) w,
                sm', sr⟩
      else some (⟨i, resI, rif, res, sm, sr⟩, none) := rfl

/-- Every exceptional exit of the loop is caused by an actual mapper or
reducer invocation: if the loop returns `some (st, some e)` — whatever
the position where this happens in the traversal — then `e` and the
recorded closure states come verbatim from the invocation that threw
(`threwFrom`), at the position recorded in `st`. -/
theorem mrLoop_error_from_throw [Inhabited V] (c : Coll V) (len : Nat)
    (m : Option (SFn σm V ε)) (r : Option (RFn σr V ε)) :
    ∀ (fuel : Nat) (st st' : LoopSt σm σr V) (e : ε),
      mrLoop c len m r fuel st = some (st', some e) →
      st'.i < len ∧ threwFrom c m r st' e := by
  intro fuel
  induction fuel with
  | zero =>
    intro st st' e h
    rw [show mrLoop c len m r 0 st = if st.i < len then none else some (st, none)
      from rfl] at h
    split at h
    · exact absurd h (by simp)
    · simp at h
  | succ fuel ih =>
    intro st st' e h
    obtain ⟨i, resI, rif, res, sm, sr⟩ := st
    rw [mrLoop_succ] at h
    by_cases hlt : i < len
    · rw [if_pos hlt] at h
      split at h
      next sm' e' heq =>
        simp only [Option.some.injEq, Prod.mk.injEq] at h
        obtain ⟨hst, he⟩ := h
        subst he
        subst hst
        exact ⟨hlt, Or.inl ⟨sm, heq⟩⟩
      next sm' o heq =>
        exact ih _ _ _ h
      next sm' w heq =>
        split at h
        · split at h
          next sr' e' heq2 =>
            simp only [Option.some.injEq, Prod.mk.injEq] at h
            obtain ⟨hst, he⟩ := h
            subst he
            subst hst
            exact ⟨hlt, Or.inr ⟨sm, sr, w, heq, heq2⟩⟩
          next sr' o heq2 =>
            exact ih _ _ _ h
          next sr' w2 heq2 =>
            exact ih _ _ _ h
        · exact ih _ _ _ h
    · rw [if_neg hlt] at h
      simp at h

/-- Every exceptional result of `mapReduce` is the verbatim exception of an
actual mapper or reducer invocation somewhere in the traversal, and the
returned closure states are the loop states at the throw — `teardownState`
is applied to neither of them (contrast the normal exit, which returns
teardown-processed states). -/
theorem mapReduceAux_error_from_throw [Inhabited V] (fuel : Nat) (c : Coll V)
    (m : Option (SFn σm V ε)) (r : Option (RFn σr V ε)) (rif : Bool)
    (res0 : ResState V) (sm0 : σm) (sr0 : σr) (smF : σm) (srF : σr) (e : ε)
    (h : mapReduceAux fuel c m r rif res0 sm0 sr0 = some (smF, srF, .error e)) :
    ∃ st' : LoopSt σm σr V,
      mrLoop c c.length m r fuel ⟨0, 0, rif, res0, setupS m sm0, setupR r sr0⟩ =
        some (st', some e)
      ∧ smF = st'.sm ∧ srF = st'.sr ∧ st'.i < c.length ∧ threwFrom c m r st' e := by
  unfold mapReduceAux at h
  revert h
  cases hl : mrLoop c c.length m r fuel ⟨0, 0, rif, res0, setupS m sm0, setupR r sr0⟩ with
  | none => intro h; simp [finishRun] at h
  | some p =>
    obtain ⟨st, oe⟩ := p
    cases oe with
    | none => intro h; simp [finishRun] at h
    | some e' =>
      intro h
      simp only [finishRun, Option.some.injEq, Prod.mk.injEq] at h
      obtain ⟨hsm, hsr, he⟩ := h
      injection he with he
      subst he
      obtain ⟨hlt, ht⟩ := mrLoop_error_from_throw c c.length m r fuel _ st e' hl
      exact ⟨st, rfl, hsm.symm, hsr.symm, hlt, ht⟩

/-- A mapper constantly returning `FilteredUntil 0` keeps the read cursor at
position 0: the loop never finishes, whatever the fuel. -/
theorem untilZero_loop_none :
    ∀ fuel : Nat,
      mrLoop (Coll.arr [(0 : Int)]) (Coll.arr [(0 : Int)] : Coll Int).length
          (some (pureSFn (fun _ _ _ => Outcome.filt (.filteredUntil 0)) (ε := String)))
          (none : Option (RFn Unit Int String)) fuel
          ⟨0, 0, false, .outColl (.arr []), (), ()⟩ = none := by
  intro fuel
  induction fuel with
  | zero => rfl
  | succ fuel ih =>
    rw [mrLoop_arr_succ, if_pos (by decide),
      show applyMapS
          (some (pureSFn (fun _ _ _ => Outcome.filt (.filteredUntil 0)) (ε := String)))
          () ([(0 : Int)].getD 0 default) (Key.idx 0) (Coll.arr [(0 : Int)]) =
        ((), Except.ok (Outcome.filt (.filteredUntil 0))) from rfl]
    exact ih

theorem resettableTraversals_flag_zero (reset body : σ → σ) (s0 : σ) :
    (resettableTraversals reset body s0 0).1 = false := rfl

theorem resettableTraversals_flag_succ (reset body : σ → σ) (s0 : σ) (n : Nat) :
    (resettableTraversals reset body s0 (n + 1)).1 = true := rfl

theorem noUntil_oddDouble : NoUntil oddDouble := by
  intro v k c off
  unfold oddDouble
  split <;> simp

end It

/-! ## Claim theorems -/

section Claims

open It

/-- C1: when `mapReduce` (or `reduce`) is called without an explicit seed,
the engine first performs a reducer-free scan (`seekSeed`, whose definition
never mentions the reducer) for the first mapper-accepted value — even when
earlier positions are rejected by filters — and that value itself becomes
the accumulator (`res := .acc v` with `resIsFirst` cleared): the traversal
continues exactly as a seeded fold, so the reducer is never invoked for the
first accepted mapped value.  In particular `reduce({x:1,y:2}, add) = 3`
and `mapReduce({x:1,y:2}, times2, add) = 6`. -/
theorem c1_seedless_first_accepted_seeds :
    (∀ (σm σr V ε : Type) [Inhabited V] (fuel : Nat) (c : Coll V)
        (m : Option (SFn σm V ε)) (r : RFn σr V ε) (sm0 : σm) (sr0 : σr),
      mapReduceAux fuel c m (some r) true .undef sm0 sr0 =
        match seekSeed c c.length m fuel 0 0 (setupS m sm0) with
        | .noFuel => none
        | .threw _ _ sm' e => some (sm', setupR (some r) sr0, .error e)
        | .exhausted _ _ sm' =>
          some (teardownS m sm', teardownR (some r) (setupR (some r) sr0), .ok .undef)
        | .found fuel' i' resI' sm' v =>
          finishRun m (some r) (mrLoop c c.length m (some r) fuel'
            ⟨i', resI', false, .acc v, sm', setupR (some r) sr0⟩))
    ∧ reduceNoSeed 3 (.obj [("x", (1 : Int)), ("y", 2)])
        (totalRFn addRed (ε := String)) () = some ((), (), .ok (.acc 3))
    ∧ mapReduceNoSeed 3 (.obj [("x", (1 : Int)), ("y", 2)])
        (some (pureSFn (fun v _ _ => .val (2 * v))))
        (totalRFn addRed (ε := String)) () () = some ((), (), .ok (.acc 6)) := by
  refine ⟨?_, rfl, rfl⟩
  intro σm σr V ε _ fuel c m r sm0 sr0
  unfold mapReduceAux
  rw [seedless_loop_eq c c.length m r fuel 0 0 (setupS m sm0) (setupR (some r) sr0)
    ResState.undef]
  cases hs : seekSeed c c.length m fuel 0 0 (setupS m sm0) with
  | noFuel => rfl
  | threw i' resI' sm' e => rfl
  | exhausted i' resI' sm' => rfl
  | found fuel' i' resI' sm' v => rfl

/-- C2: for two or more steps, the fused function built by `pipe` equals
sequential application `fn(...f2(f1(v,k,o),k,o)...,k,o)` with
short-circuit, and a filtered outcome produced by a prefix of the pipe is
returned unchanged — the remaining steps never run and the state is left
exactly as the prefix left it (a mid-pipe `FilteredRest` is returned as
`FilteredRest`). -/
theorem c2_pipe_equals_sequential_application :
    (∀ (σ V ε : Type) (fs : List (SFn σ V ε)) (s : σ) (v : V) (k : Key)
        (c : Coll V), 2 ≤ fs.length →
      (pipeFn fs).run s v k c = seqApply fs s v k c)
    ∧ (∀ (σ V ε : Type) (fs gs : List (SFn σ V ε)) (s : σ) (v : V) (k : Key)
        (c : Coll V) (s' : σ) (o : Filt),
      pipeRunAux fs s (.val v) k c = (s', .ok (.filt o)) →
      pipeRunAux (fs ++ gs) s (.val v) k c = (s', .ok (.filt o))) := by
  constructor
  · intro σ V ε fs s v k c _
    exact pipeRunAux_eq_seqApplyAux k c fs s (.val v)
  · intro σ V ε fs gs s v k c s' o h
    rw [pipeRunAux_append, h]
    exact pipeRunAux_filtered k c gs s' o

theorem c2_pipe_witness :
    ((pipeFn [dblFn, incFn]).run () 3 (.idx 0) (.arr [3]) =
      seqApply [dblFn, incFn] () 3 (.idx 0) (.arr [3]))
    ∧ pipeRunAux ([rejectRestFn] ++ [incFn]) () (.val 3) (.idx 0) (.arr [3]) =
      ((), .ok (.filt .filteredRest)) :=
  ⟨c2_pipe_equals_sequential_application.1 Unit Int String [dblFn, incFn] () 3
      (.idx 0) (.arr [3]) (by decide),
    c2_pipe_equals_sequential_application.2 Unit Int String [rejectRestFn] [incFn] ()
      3 (.idx 0) (.arr [3]) () .filteredRest rfl⟩

/-- C3 counterexample: a mapper that throws on the single item of `[1]`.
`mapReduce` returns the exception, but the returned mapper and reducer
closure states are both `false`: the `teardown` hooks (which would have set
them to `true`) were NOT invoked before the exception left `mapReduce` —
the source has no `try`/`finally` around the loop.  This refutes the claim
that teardown fires on the exceptional exit path. -/
theorem c3_teardown_not_run_on_throw_counterexample :
    mapReduceNoSeed 3 (.arr [(1 : Int)]) (some boomFn) flagRFn false false =
      some (false, false, .error "boom")
    ∧ boomFn.teardown false = true
    ∧ flagRFn.teardown false = true
    ∧ (false : Bool) ≠ true := ⟨rfl, rfl, rfl, by decide⟩

/-- C3 amended: the exception path runs no teardown, for every throwing
invocation anywhere in a traversal.  (1) Whenever the engine returns an
exception, the throw came from an actual mapper or reducer invocation at a
position inside the collection, and the returned mapper and reducer states
are exactly the loop states at the moment of the throw — `threwFrom` pins
them to the raw outputs of the throwing call, so no teardown hook was
applied to either.  (2) When the mapper throws at the first scanned
position the exception propagates, the mapper state comes back exactly as
the throw left it, and the reducer state has only `setup` applied.
(3) A reducer that throws mid-traversal (on the second accepted value)
propagates its exception with both teardown flags still unset.  (4) A
mapper that throws mid-traversal (at the third position, with a reducer
attached) likewise propagates with both teardown flags still unset. -/
theorem c3_exception_propagates_without_teardown :
    (∀ (σm σr V ε : Type) [Inhabited V] (fuel : Nat) (c : Coll V)
        (m : Option (SFn σm V ε)) (r : Option (RFn σr V ε)) (rif : Bool)
        (res0 : ResState V) (sm0 : σm) (sr0 : σr) (smF : σm) (srF : σr) (e : ε),
      mapReduceAux fuel c m r rif res0 sm0 sr0 = some (smF, srF, .error e) →
      ∃ st' : LoopSt σm σr V,
        mrLoop c c.length m r fuel ⟨0, 0, rif, res0, setupS m sm0, setupR r sr0⟩ =
          some (st', some e)
        ∧ smF = st'.sm ∧ srF = st'.sr ∧ st'.i < c.length ∧ threwFrom c m r st' e)
    ∧ (∀ (σm σr V ε : Type) [Inhabited V] (c : Coll V) (m : SFn σm V ε)
        (r : RFn σr V ε) (sm0 : σm) (sr0 : σr) (fuel : Nat) (e : ε) (sm1 : σm),
      0 < c.length → 0 < fuel →
      m.run (m.setup sm0) (c.valAt (c.keyAt 0))
          (if c.isArr then Key.idx 0 else c.keyAt 0) c = (sm1, .error e) →
      mapReduceNoSeed fuel c (some m) r sm0 sr0 =
        some (sm1, r.setup sr0, .error e))
    ∧ (reduceNoSeed 5 (.arr [(1 : Int), 2, 3]) boomOn2RFn false =
        some ((), false, .error "reducer boom")
      ∧ boomOn2RFn.teardown false = true ∧ (false : Bool) ≠ true)
    ∧ (mapReduceNoSeed 5 (.arr [(1 : Int), 2, 3, 4]) (some boomOn3Fn) flagRFn
          false false =
        some (false, false, .error "mapper boom")
      ∧ boomOn3Fn.teardown false = true ∧ flagRFn.teardown false = true) := by
  refine ⟨?_, ?_, ⟨rfl, rfl, by decide⟩, ⟨rfl, rfl, rfl⟩⟩
  · intro σm σr V ε _ fuel c m r rif res0 sm0 sr0 smF srF e h
    exact mapReduceAux_error_from_throw fuel c m r rif res0 sm0 sr0 smF srF e h
  · intro σm σr V ε _ c m r sm0 sr0 fuel e sm1 h0 hfuel hthrow
    obtain ⟨fuel', rfl⟩ : ∃ f', fuel = f' + 1 := ⟨fuel - 1, by omega⟩
    unfold mapReduceNoSeed mapReduceAux
    rw [mrLoop_succ, if_pos h0]
    have h2 : applyMapS (some m) (setupS (some m) sm0) (c.valAt (c.keyAt 0))
        (if c.isArr then Key.idx 0 else c.keyAt 0) c = (sm1, .error e) := hthrow
    rw [h2]
    rfl

theorem c3_exception_witness :
    (∃ st' : LoopSt Bool Bool Int,
      mrLoop (Coll.arr [(1 : Int)]) (Coll.arr [(1 : Int)] : Coll Int).length
          (some boomFn) (some flagRFn) 3
          ⟨0, 0, true, ResState.undef, setupS (some boomFn) false,
            setupR (some flagRFn) false⟩ = some (st', some "boom")
      ∧ (false : Bool) = st'.sm ∧ (false : Bool) = st'.sr
      ∧ st'.i < (Coll.arr [(1 : Int)] : Coll Int).length
      ∧ threwFrom (Coll.arr [(1 : Int)]) (some boomFn) (some flagRFn) st' "boom")
    ∧ mapReduceNoSeed 3 (.arr [(1 : Int)]) (some boomFn) flagRFn true true =
        some (true, flagRFn.setup true, .error "boom") :=
  ⟨c3_exception_propagates_without_teardown.1 Bool Bool Int String 3
      (.arr [(1 : Int)]) (some boomFn) (some flagRFn) true .undef false false
      false false "boom" rfl,
    c3_exception_propagates_without_teardown.2.1 Bool Bool Int String
      (.arr [(1 : Int)]) boomFn flagRFn true true 3 "boom" true (by decide)
      (by decide) rfl⟩

/-- C4: in a traversal without a reducer that requests an output, the
engine behaves exactly as the write log describes (`map` = replaying the
recorded writes into an empty container of the input's kind); over an
array the recorded write keys are the consecutive indices `0..m-1` — the
output array is the accepted values with no gaps — and over an object every
surviving entry is written under its original property name while keys that
are never written are absent from the output.  Illustrated on concrete
filtered traversals of both kinds. -/
theorem c4_output_compaction :
    (∀ (σ V ε : Type) [Inhabited V] (fuel : Nat) (c : Coll V)
        (m : Option (SFn σ V ε)) (sm0 : σ),
      map fuel c m sm0 =
        mapResult c m (mapScan c c.length m fuel 0 0 0 (setupS m sm0)))
    ∧ (∀ (σ V ε : Type) [Inhabited V] (fuel : Nat) (l : List V)
        (m : Option (SFn σ V ε)) (sm0 : σ),
      ((mapScan (.arr l) l.length m fuel 0 0 0 (setupS m sm0)).writes).map Prod.fst =
        (List.range' 0
          ((mapScan (.arr l) l.length m fuel 0 0 0 (setupS m sm0)).writes).length).map
          Key.idx
      ∧ applyWrites (Coll.arr ([] : List V))
          ((mapScan (.arr l) l.length m fuel 0 0 0 (setupS m sm0)).writes) =
        .arr (((mapScan (.arr l) l.length m fuel 0 0 0 (setupS m sm0)).writes).map
          Prod.snd))
    ∧ (∀ (σ V ε : Type) [Inhabited V] (fuel : Nat) (es : List (String × V))
        (m : Option (SFn σ V ε)) (sm0 : σ) (p : Key × V),
      p ∈ (mapScan (.obj es) es.length m fuel 0 0 0 (setupS m sm0)).writes →
      ∃ s, p.1 = .str s ∧ s ∈ es.map Prod.fst)
    ∧ (∀ (σ V ε : Type) [Inhabited V] (fuel : Nat) (es : List (String × V))
        (m : Option (SFn σ V ε)) (sm0 : σ) (t : String),
      t ∈ (applyWrites (Coll.obj ([] : List (String × V)))
          ((mapScan (.obj es) es.length m fuel 0 0 0 (setupS m sm0)).writes)).keysList →
      (Key.str t) ∈
        ((mapScan (.obj es) es.length m fuel 0 0 0 (setupS m sm0)).writes).map Prod.fst)
    ∧ map 6 (.arr [(1 : Int), 2, 3, 4]) (some (pureSFn oddKeep (ε := String))) () =
        some ((), (), .ok (.outColl (.arr [1, 3])))
    ∧ map 6 (.obj [("a", (1 : Int)), ("b", 2), ("c", 3)])
        (some (pureSFn oddKeep (ε := String))) () =
        some ((), (), .ok (.outColl (.obj [("a", 1), ("c", 3)]))) := by
  refine ⟨?_, ?_, ?_, ?_, rfl, rfl⟩
  · intro σ V ε _ fuel c m sm0
    exact map_eq_mapScan fuel c m sm0
  · intro σ V ε _ fuel l m sm0
    refine ⟨mapScan_arr_writes_keys l l.length m fuel 0 0 0 (setupS m sm0), ?_⟩
    exact applyWrites_arr_consecutive _ []
      (mapScan_arr_writes_keys l l.length m fuel 0 0 0 (setupS m sm0))
  · intro σ V ε _ fuel es m sm0 p hp
    exact mapScan_obj_writes_keys es m fuel 0 0 0 (setupS m sm0) p hp
  · intro σ V ε _ fuel es m sm0 t ht
    rcases applyWrites_obj_keys _ [] t ht with h | h
    · simp at h
    · exact h

theorem c4_output_compaction_witness :
    ∃ s, ((Key.str "a", (1 : Int)), s).1.1 = Key.str s ∧
      s ∈ ([("a", (1 : Int)), ("b", 2)].map Prod.fst) := by
  have h := c4_output_compaction.2.2.1 Unit Int String 6 [("a", (1 : Int)), ("b", 2)]
    none () (Key.str "a", 1) (by decide)
  obtain ⟨s, hs1, hs2⟩ := h
  exact ⟨s, by simpa using hs1, hs2⟩

/-- C5 counterexample: stateless mapper `v + key` and stateless reducer
that rejects the value 21 and otherwise adds.  The fused
`mapReduce([10,20,30], m, r)` yields 41, while the two-pass
`reduce(map([10,20,30], m), r)` yields 42: fusion equivalence fails as
stated for arbitrary stateless `m`, `r`, because a key-inspecting mapper
sees the fused write cursor (which a reducer rejection freezes) while the
second pass re-enumerates the intermediate array. -/
theorem c5_fusion_counterexample :
    mapReduceNoSeed 9 (.arr [(10 : Int), 20, 30]) (some (pureSFn addKeyMapper))
        (pureRFn skip21Reducer (ε := String)) () () =
      some ((), (), .ok (.acc 41))
    ∧ map 9 (.arr [(10 : Int), 20, 30]) (some (pureSFn addKeyMapper (ε := String))) () =
      some ((), (), .ok (.outColl (.arr [10, 21, 32])))
    ∧ reduceNoSeed 9 (.arr [(10 : Int), 21, 32]) (pureRFn skip21Reducer (ε := String)) () =
      some ((), (), .ok (.acc 42))
    ∧ ResState.acc (41 : Int) ≠ ResState.acc 42 := ⟨rfl, rfl, rfl, by decide⟩

/-- C5 amended: fusion equivalence holds for every stateless mapper whose
rejections are `Filtered` / `FilteredRest` and every stateless reducer that
always produces a value and ignores the collection argument: for both
collection kinds, the fused single pass `mapReduce(c, m, r)` (no seed)
computes the same value as `map(c, m)` followed by a seedless `reduce` of
the intermediate collection.  (Object keys are distinct, as JS object keys
are.) -/
theorem c5_fusion_equivalence_restricted :
    (∀ (V ε : Type) [Inhabited V] (l : List V)
        (f : V → Key → Coll V → Outcome V) (g : V → V → Key → V) (fuel : Nat),
      NoUntil f → l.length ≤ fuel →
      ∃ (mc : Coll V) (res : ResState V),
        map (ε := ε) fuel (.arr l) (some (pureSFn f)) () =
          some ((), (), .ok (.outColl mc))
        ∧ mapReduceNoSeed (ε := ε) fuel (.arr l) (some (pureSFn f)) (totalRFn g) () () =
          some ((), (), .ok res)
        ∧ reduceNoSeed (ε := ε) fuel mc (totalRFn g) () = some ((), (), .ok res))
    ∧ (∀ (V ε : Type) [Inhabited V] (es : List (String × V))
        (f : V → Key → Coll V → Outcome V) (g : V → V → Key → V) (fuel : Nat),
      NoUntil f → es.length ≤ fuel → (es.map Prod.fst).Nodup →
      ∃ (mc : Coll V) (res : ResState V),
        map (ε := ε) fuel (.obj es) (some (pureSFn f)) () =
          some ((), (), .ok (.outColl mc))
        ∧ mapReduceNoSeed (ε := ε) fuel (.obj es) (some (pureSFn f)) (totalRFn g) () () =
          some ((), (), .ok res)
        ∧ reduceNoSeed (ε := ε) fuel mc (totalRFn g) () = some ((), (), .ok res)) := by
  constructor
  · intro V ε _ l f g fuel hnu hfuel
    refine ⟨.arr ((acceptArr f (.arr l) l 0).map Prod.snd),
      pairsSeedFold g (acceptArr f (.arr l) l 0),
      map_arr_pure l f fuel hnu hfuel,
      mapReduceNoSeed_arr_pure l f g fuel hnu hfuel, ?_⟩
    rw [reduceNoSeed_arr_idAccept _ g fuel
      (by rw [List.length_map]; exact le_trans (acceptArr_length f (.arr l) l 0) hfuel)]
    rw [← acceptArr_enum f (.arr l) l 0]
  · intro V ε _ es f g fuel hnu hfuel hnd
    have hsub := acceptObjE_keys_sublist f es (es.map Prod.fst)
    refine ⟨.obj (acceptObjE f es (es.map Prod.fst)),
      pairsSeedFold g (toKeyPairs (acceptObjE f es (es.map Prod.fst))),
      map_obj_pure es f fuel hnu hfuel hnd,
      mapReduceNoSeed_obj_pure es f g fuel hnu hfuel, ?_⟩
    refine reduceNoSeed_obj_idAccept _ g fuel ?_ ?_
    · have h := hsub.length_le
      simp only [List.length_map] at h
      omega
    · exact hnd.sublist hsub

theorem c5_fusion_witness :
    ∃ (mc : Coll Int) (res : ResState Int),
      map (ε := String) 5 (.arr [(1 : Int), 2, 3]) (some (pureSFn oddDouble)) () =
        some ((), (), .ok (.outColl mc))
      ∧ mapReduceNoSeed (ε := String) 5 (.arr [(1 : Int), 2, 3])
          (some (pureSFn oddDouble)) (totalRFn addRed) () () = some ((), (), .ok res)
      ∧ reduceNoSeed (ε := String) 5 mc (totalRFn addRed) () = some ((), (), .ok res) :=
  c5_fusion_equivalence_restricted.1 Int String [(1 : Int), 2, 3] oddDouble addRed 5
    noUntil_oddDouble (by decide)

/-- C6 counterexample: `FilteredUntil(0).nextIndex(0, 1)` is `0`, not the
claimed defensive one-step advance `0 + 1`; consequently a mapper that
constantly returns `FilteredUntil(0)` over the one-element array `[0]` has
not finished after 5 loop iterations — far more than "length iterations'
worth of forward progress". -/
theorem c6_until_counterexample :
    Filt.nextIndex (.filteredUntil 0) 0 1 = 0
    ∧ Filt.nextIndex (.filteredUntil 0) 0 1 ≠ 0 + 1
    ∧ map 5 (.arr [(0 : Int)])
        (some (pureSFn (fun _ _ _ => .filt (.filteredUntil 0)) (ε := String))) () =
      none := ⟨rfl, by decide, rfl⟩

/-- C6 amended: the engine does NOT guard against a stalling jump sentinel:
`FilteredUntil(offset).nextIndex` returns `offset` unconditionally, so with
`offset ≤ currentIndex` the cursor does not advance, and `mapReduce` need
not terminate — with a mapper constantly returning `FilteredUntil(0)` over
`[0]`, the loop is unfinished for EVERY fuel bound. -/
theorem c6_until_no_defensive_advance :
    (∀ off i len : Nat, Filt.nextIndex (.filteredUntil off) i len = off)
    ∧ (∀ fuel : Nat,
      map fuel (.arr [(0 : Int)])
        (some (pureSFn (fun _ _ _ => .filt (.filteredUntil 0)) (ε := String))) () =
      none) := by
  refine ⟨fun _ _ _ => rfl, ?_⟩
  intro fuel
  unfold map
  rw [mapReduceAux_unitStates,
    show (Coll.arr [(0 : Int)]).emptyLike = Coll.arr [] from rfl,
    untilZero_loop_none fuel]
  rfl

/-- C7 counterexample: a second traversal over the very same `uniq()`
instance — starting from the closure state the first traversal left behind
(`known = null` after teardown), with no intervening reset — yields
`[1,2,3]` again, NOT `[]`: `uniq` in `it.js` attaches a `setup` hook that
reinitializes `known` at the start of every traversal, so no deduplication
state is carried over. -/
theorem c7_uniq_counterexample :
    map 6 (.arr [(1 : Int), 2, 2, 3, 1]) (some (uniqFn "TypeError")) none =
      some (none, (), .ok (.outColl (.arr [1, 2, 3])))
    ∧ Coll.arr [(1 : Int), 2, 3] ≠ Coll.arr [] := ⟨rfl, by decide⟩

/-- C7 amended: `map` over `[1,2,2,3,1]` with a `uniq()` instance yields
`[1,2,3]` (with the final closure state `null`, set by teardown), and a
second independent traversal over the same instance — fed that final
closure state, with no intervening reset — yields `[1,2,3]` again, because
`uniq`'s own `setup` hook resets `known` to a fresh empty set on every
traversal. -/
theorem c7_uniq_second_traversal_resets :
    map 6 (.arr [(1 : Int), 2, 2, 3, 1]) (some (uniqFn "TypeError")) (some []) =
      some (none, (), .ok (.outColl (.arr [1, 2, 3])))
    ∧ map 6 (.arr [(1 : Int), 2, 2, 3, 1]) (some (uniqFn "TypeError")) none =
      some (none, (), .ok (.outColl (.arr [1, 2, 3]))) := ⟨rfl, rfl⟩

/-- C8: `skip(2)` over `[1,2,3,4,5]` yields `[3,4,5]`; `limit(2)` over the
same array yields `[1,2]`; and the fused `pipe(skip(2), limit(2))` (with the
composed setup hooks initializing both members) yields `[3,4]`. -/
theorem c8_skip_limit_pipe :
    map 6 (.arr [(1 : Int), 2, 3, 4, 5]) (some (skipFn 2 (ε := String))) false =
      some (false, (), .ok (.outColl (.arr [3, 4, 5])))
    ∧ map 6 (.arr [(1 : Int), 2, 3, 4, 5]) (some (limitFn 2 (ε := String))) 0 =
      some ((3 : Nat), (), .ok (.outColl (.arr [1, 2])))
    ∧ map 6 (.arr [(1 : Int), 2, 3, 4, 5])
        (some (pipeFn [(skipFn 2 (ε := String)).liftFst, SFn.liftSnd (limitFn 2)]))
        (false, 0) =
      some ((false, (3 : Nat)), (), .ok (.outColl (.arr [3, 4]))) := ⟨rfl, rfl, rfl⟩

/-- C9 counterexample: the `resettable` flag is checked but NOT consumed by
`setup`: after a `setup` that ran the reset (flag `true`, inner state `0`
reset to `1`), the flag is still `true`, refuting
"checked-and-consumed by setup". -/
theorem c9_flag_not_consumed_counterexample :
    resettableSetup (fun s : Nat => s + 1) (true, 0) = (true, 1)
    ∧ (resettableSetup (fun s : Nat => s + 1) (true, 0)).1 ≠ false := ⟨rfl, by decide⟩

/-- C9 amended: `resettable`'s deferred-reset behavior.  `setup` on the
freshly-constructed state (flag `false`) never invokes `resetFn` (the state
is returned unchanged for every `resetFn`), `setup` invokes `resetFn`
exactly when the flag is set — leaving the flag set —, the flag is `false`
after construction and `true` after every completed traversal (it is set by
`teardown`): so across paired setup/run/teardown traversals, `resetFn` runs
during setup exactly when a previous traversal's teardown has run. -/
theorem c9_resettable_deferred_reset :
    (∀ (σ : Type) (reset : σ → σ) (s : σ),
      resettableSetup reset (false, s) = (false, s))
    ∧ (∀ (σ : Type) (reset : σ → σ) (s : σ),
      resettableSetup reset (true, s) = (true, reset s))
    ∧ (∀ (σ : Type) (reset body : σ → σ) (s0 : σ),
      (resettableTraversals reset body s0 0).1 = false)
    ∧ (∀ (σ : Type) (reset body : σ → σ) (s0 : σ) (n : Nat),
      (resettableTraversals reset body s0 (n + 1)).1 = true) :=
  ⟨fun _ _ _ => rfl, fun _ _ _ => rfl, fun _ _ _ _ => rfl, fun _ _ _ _ _ => rfl⟩

/-- C10: over an array, every key the engine passes to the mapper is the
current write cursor — provably the number of items accepted so far in the
traversal — not the item's original index: `map` equals the scan whose
recorded calls pair each passed key with an independent accepted-count, and
every recorded call satisfies `key = Key.idx acceptedCount`.  Concretely,
filtering `[1,2,3]` to odd values invokes the mapper with keys `0, 1, 1`
(the third item is passed key 1, not its index 2), and a reducer behind a
filtering mapper over `[1,2,3,4]` is likewise invoked at the compacted key
`1` for the value at original index 2. -/
theorem c10_mapper_key_is_write_cursor :
    (∀ (σ V ε : Type) [Inhabited V] (fuel : Nat) (l : List V)
        (m : Option (SFn σ V ε)) (sm0 : σ),
      map fuel (.arr l) m sm0 =
        mapResult (.arr l) m (mapScan (.arr l) l.length m fuel 0 0 0 (setupS m sm0)))
    ∧ (∀ (σ V ε : Type) [Inhabited V] (fuel : Nat) (l : List V)
        (m : Option (SFn σ V ε)) (sm0 : σ) (p : Key × Nat),
      p ∈ (mapScan (.arr l) l.length m fuel 0 0 0 (setupS m sm0)).calls →
      p.1 = .idx p.2)
    ∧ (mapScan (.arr [(1 : Int), 2, 3]) 3 (some (pureSFn oddKeep (ε := String)))
        6 0 0 0 ()).calls = [(.idx 0, 0), (.idx 1, 1), (.idx 1, 1)]
    ∧ Key.idx 1 ≠ Key.idx 2
    ∧ mapReduceNoSeed 6 (.arr [(1 : Int), 2, 3, 4]) (some (pureSFn oddKeep))
        logKeysRFn () [] = some ((), [Key.idx 1], .ok (.acc 4)) := by
  refine ⟨?_, ?_, rfl, by decide, rfl⟩
  · intro σ V ε _ fuel l m sm0
    exact map_eq_mapScan fuel (.arr l) m sm0
  · intro σ V ε _ fuel l m sm0 p hp
    exact mapScan_arr_calls l l.length m fuel 0 0 (setupS m sm0) p hp

theorem c10_key_witness :
    (Key.idx 0, (0 : Nat)).1 = Key.idx (Key.idx 0, (0 : Nat)).2 :=
  c10_mapper_key_is_write_cursor.2.1 Unit Int String 6 [(5 : Int), 6] none ()
    (Key.idx 0, 0) (by decide)

end Claims
